import Mathlib

/-!
Verification development for the settlemaker procedural settlement generator.

The TypeScript sources are shallowly embedded in Lean 4:
* machine floats become exact rationals (ℚ); transcendental primitives
  (cos, sin, sqrt-based normalisation, atan2, pow) that a theorem does not
  need exactly are taken as explicit function parameters, so every theorem
  holds for every interpretation of them;
* the mutable object heap of Point objects is made explicit where a claim
  is about identity or mutation (a store of coordinates indexed by ℕ);
* fallible code returns Except / Option; loops without a structural bound
  are given explicit fuel.
-/

namespace Settle

/-! ### Seeded LCG PRNG, from src/utils/random.ts (port of Random.hx)

The generator keeps one integer state; `next` is
`seed = seed * 48271 % 2147483647`.  The constructor takes an optional
seed; when absent it falls back to `Date.now() % N` (the only environment
input in the whole generator), and any state `≤ 0` is coerced to 1. -/

def lcgN : ℤ := 2147483647

def lcgG : ℤ := 48271

/-- Constructor of SeededRandom: explicit seed if supplied, otherwise the
ambient clock value modulo N; a non-positive result is coerced to 1. -/
def seededRandomInit (seed : Option ℤ) (now : ℤ) : ℤ :=
  let s := seed.getD (now % lcgN)
  if s ≤ 0 then 1 else s

/-- One step of the LCG: seed * 48271 % 2147483647. -/
def lcgNext (s : ℤ) : ℤ := s * lcgG % lcgN

/-- State after n steps. -/
def lcgIter (s : ℤ) : ℕ → ℤ
  | 0 => s
  | n + 1 => lcgNext (lcgIter s n)

/-- SeededRandom.float: next() / N, as an exact rational. -/
def lcgFloat (s : ℤ) : ℚ := (lcgNext s : ℚ) / (lcgN : ℚ)

/-! ### Generation parameters, from src/generator/generation-params.ts

`seed` is read exactly once, by the Model constructor, to build the single
SeededRandom instance; every other field is consumed by the pipeline
phases.  We therefore split the record: `PipelineParams` is everything the
six build phases can see, and `GenerationParams` adds the seed. -/

structure PipelineParams where
  nPatches : ℕ
  plazaNeeded : Bool
  citadelNeeded : Bool
  wallsNeeded : Bool
  templeNeeded : Bool
  shantyNeeded : Bool
  capitalNeeded : Bool

structure GenerationParams where
  toPipeline : PipelineParams
  seed : ℤ

/-! ### Model state and the retry loop, from src/generator/model.ts

The pipeline content (buildPatches … buildGeometry) is heavy float
geometry; the claims about `generate` are structural, so the six-phase
`build` body is an arbitrary state transformer `build : ModelState →
Option BuildError × ModelState`: it may consume RNG state, mutate every
field, and either succeed (none) or raise a structural error (some e),
leaving its partial mutations behind exactly as a thrown exception does in
the source.  The claim theorems quantify over every such transformer. -/

/-- The mutable fields of Model (src/generator/model.ts lines 25-59),
with content types abstracted: the retry logic never inspects them. -/
structure ModelState (Patch Wall Street Topo Pt : Type) where
  rngState : ℤ
  params : PipelineParams
  patches : List Patch
  waterbody : List Patch
  inner : List Patch
  citadel : Option Patch
  plaza : Option Patch
  center : Option Pt
  border : Option Wall
  wall : Option Wall
  cityRadius : ℚ
  gates : List Pt
  arteries : List Street
  streets : List Street
  roads : List Street
  topology : Option Topo

variable {Patch Wall Street Topo Pt : Type}

/-- Model constructor: stores the params and seeds the single RNG from
params.seed (always explicitly supplied); `now` is the ambient clock that
SeededRandom would consult only for an absent seed. -/
def mkModelState (p : GenerationParams) (now : ℤ) :
    ModelState Patch Wall Street Topo Pt :=
  { rngState := seededRandomInit (some p.seed) now
    params := p.toPipeline
    patches := [], waterbody := [], inner := [], citadel := none
    plaza := none, center := none, border := none, wall := none
    cityRadius := 0, gates := [], arteries := [], streets := []
    roads := [], topology := none }

/-- The catch block of Model.generate: reset the build products, keep the
RNG state (and params, center, waterbody, cityRadius) untouched. -/
def resetState (s : ModelState Patch Wall Street Topo Pt) :
    ModelState Patch Wall Street Topo Pt :=
  { s with patches := [], inner := [], citadel := none, plaza := none
           border := none, wall := none, gates := [], streets := []
           roads := [], arteries := [], topology := none }

/-- The fatal message thrown after MAX_ATTEMPTS failures. -/
def fatalMsg : String := "Failed to generate after 20 attempts"

/-- The retry loop of Model.generate: run `build`; on success return the
completed model, on failure reset and retry with the remaining attempts. -/
def generateLoop
    (build : ModelState Patch Wall Street Topo Pt →
        Option String × ModelState Patch Wall Street Topo Pt) :
    ℕ → ModelState Patch Wall Street Topo Pt →
      Except String (ModelState Patch Wall Street Topo Pt)
  | 0, _ => .error fatalMsg
  | n + 1, s =>
    match build s with
    | (none, s1) => .ok s1
    | (some _, s1) => generateLoop build n (resetState s1)

/-- MAX_ATTEMPTS = 20. -/
def maxAttempts : ℕ := 20

/-- Model.generate for explicit params: construct the model (seeding the
RNG from params.seed at ambient time `now`) and run the retry loop. -/
def generate
    (build : ModelState Patch Wall Street Topo Pt →
        Option String × ModelState Patch Wall Street Topo Pt)
    (p : GenerationParams) (now : ℤ) :
    Except String (ModelState Patch Wall Street Topo Pt) :=
  generateLoop build maxAttempts (mkModelState p now)

/-- State entering attempt k, assuming the first k attempts all failed. -/
def attemptState
    (build : ModelState Patch Wall Street Topo Pt →
        Option String × ModelState Patch Wall Street Topo Pt)
    (s : ModelState Patch Wall Street Topo Pt) : ℕ →
      ModelState Patch Wall Street Topo Pt
  | 0 => s
  | k + 1 => resetState (build (attemptState build s k)).2

end Settle

namespace Settle

/-! ### Geometry values, from src/types/point.ts and src/geom/geom-utils.ts

Coordinates are exact rationals.  `nrm` parameters stand for the
sqrt-based Point.norm operation, which no theorem needs exactly. -/

structure PointQ where
  x : ℚ
  y : ℚ
deriving DecidableEq, Repr

instance : Inhabited PointQ := ⟨⟨0, 0⟩⟩

/-- cross(x1, y1, x2, y2) = x1 * y2 - y1 * x2, from geom-utils.ts. -/
def crossQ (a b : PointQ) : ℚ := a.x * b.y - b.x * a.y

/-- intersectLines from geom-utils.ts: parametric intersection of the
line through (x1,y1) with direction (dx1,dy1) and the line through
(x2,y2) with direction (dx2,dy2); none when parallel.  The result packs
the two parameters as a point (x = t1, y = t2). -/
def intersectLines (x1 y1 dx1 dy1 x2 y2 dx2 dy2 : ℚ) : Option PointQ :=
  let d := dx1 * dy2 - dy1 * dx2
  if d = 0 then none
  else
    let t2 := (dy1 * (x2 - x1) - dx1 * (y2 - y1)) / d
    let t1 := if dx1 ≠ 0 then (x2 - x1 + dx2 * t2) / dx1
      else (y2 - y1 + dy2 * t2) / dy1
    some ⟨t1, t2⟩

/-- Head of a vertex list (vertices[0]). -/
def headQ : List PointQ → PointQ
  | [] => default
  | a :: _ => a

/-- Last element of a vertex list (vertices[len - 1]). -/
def lastQ : List PointQ → PointQ
  | [] => default
  | [a] => a
  | _ :: b :: t => lastQ (b :: t)

/-- Sum of cross products over consecutive pairs, no wraparound. -/
def pathCross : List PointQ → ℚ
  | [] => 0
  | [_] => 0
  | a :: b :: t => crossQ a b + pathCross (b :: t)

/-- Cyclic cross-product sum: the loop of Polygon.square starts from the
pair (vertices[len-1], vertices[0]) and then adds the consecutive
pairs. -/
def cyclicCross : List PointQ → ℚ
  | [] => 0
  | a :: t => pathCross (a :: t) + crossQ (lastQ (a :: t)) a

/-- Polygon.square: signed area, zero for fewer than 3 vertices. -/
def squareQ (l : List PointQ) : ℚ :=
  if l.length < 3 then 0 else cyclicCross l * (1 / 2)

/-- One step of the boundary-crossing scan of Polygon.cut: the
intersection of the cutting line with the line of edge i, kept when the
edge parameter t2 lies in [0,1].  A kept entry records the edge index and
the parameter t1 along the cutting line. -/
def cutCrossFn (poly : List PointQ) (p1 p2 : PointQ) (i : ℕ) :
    Option (ℕ × ℚ) :=
  let v0 := poly.getD i default
  let v1 := poly.getD ((i + 1) % poly.length) default
  match intersectLines p1.x p1.y (p2.x - p1.x) (p2.y - p1.y)
      v0.x v0.y (v1.x - v0.x) (v1.y - v0.y) with
  | some t => if 0 ≤ t.y ∧ t.y ≤ 1 then some (i, t.x) else none
  | none => none

/-- The full boundary-crossing scan of Polygon.cut over all edges. -/
def cutCrossings (poly : List PointQ) (p1 p2 : PointQ) : List (ℕ × ℚ) :=
  (List.range poly.length).filterMap (cutCrossFn poly p1 p2)

/-- The success path of Polygon.cut: exactly two crossings produce the
two halves, the two freshly computed intersection points, and the sign of
the cross test that orders the returned pair. -/
def cutPieces (poly : List PointQ) (p1 p2 : PointQ) :
    Option (List PointQ × List PointQ × PointQ × PointQ × Bool) :=
  match cutCrossings poly p1 p2 with
  | [(e1, r1), (e2, r2)] =>
    let dx := p2.x - p1.x
    let dy := p2.y - p1.y
    let point1 : PointQ := ⟨p1.x + dx * r1, p1.y + dy * r1⟩
    let point2 : PointQ := ⟨p1.x + dx * r2, p1.y + dy * r2⟩
    let half1 := point1 :: ((poly.drop (e1 + 1)).take (e2 - e1) ++ [point2])
    let half2 := point2 ::
      ((poly.drop (e2 + 1) ++ poly.take (e1 + 1)) ++ [point1])
    let ve : PointQ := poly.getD e1 default
    let ve1 : PointQ := poly.getD ((e1 + 1) % poly.length) default
    some (half1, half2, point1, point2,
      decide (0 < dx * (ve1.y - ve.y) - dy * (ve1.x - ve.x)))
  | _ => none

/-- Polygon.cut restricted to gap 0 (used by peel, which always passes
gap 0 to the inner cut). -/
def cutGap0 (poly : List PointQ) (p1 p2 : PointQ) : List (List PointQ) :=
  match cutPieces poly p1 p2 with
  | some (h1, h2, _, _, flag) => if flag then [h1, h2] else [h2, h1]
  | none => [poly]

/-- Polygon.peel: cut a margin of width d along the edge starting at v1.
The offset direction uses Point.norm, abstracted as nrm. -/
def peelQ (nrm : PointQ → ℚ → PointQ) (poly : List PointQ) (v1 : PointQ)
    (d : ℚ) : List PointQ :=
  let i1 := poly.indexOf v1
  let i2 := if i1 = poly.length - 1 then 0 else i1 + 1
  let v2 := poly.getD i2 default
  let v : PointQ := ⟨v2.x - v1.x, v2.y - v1.y⟩
  let n := nrm ⟨-v.y, v.x⟩ d
  match cutGap0 poly ⟨v1.x + n.x, v1.y + n.y⟩ ⟨v2.x + n.x, v2.y + n.y⟩ with
  | h :: _ => h
  | [] => poly

/-- Polygon.cut, from geom-utils.ts lines 527-587: scan the boundary for
crossings with the infinite line through p1 and p2; with exactly two
crossings return the two halves (peeled by gap/2 when gap > 0), ordered
by the cross test; otherwise return the polygon unsplit. -/
def cutQ (nrm : PointQ → ℚ → PointQ) (poly : List PointQ) (p1 p2 : PointQ)
    (gap : ℚ) : List (List PointQ) :=
  match cutPieces poly p1 p2 with
  | some (h1, h2, pt1, pt2, flag) =>
    let g1 := if 0 < gap then peelQ nrm h1 pt2 (gap / 2) else h1
    let g2 := if 0 < gap then peelQ nrm h2 pt1 (gap / 2) else h2
    if flag then [g1, g2] else [g2, g1]
  | none => [poly]

/-- A self-intersecting quadrilateral used to test the cut area law. -/
def bowtiePoly : List PointQ := [⟨0, 0⟩, ⟨2, 2⟩, ⟨2, 0⟩, ⟨0, 3⟩]

/-- The unit square, counter-clockwise. -/
def unitSquare : List PointQ := [⟨0, 0⟩, ⟨1, 0⟩, ⟨1, 1⟩, ⟨0, 1⟩]

/-! ### Recursive subdivision (createAlleys), from src/wards/ward.ts and
src/geom/cutter.ts

The chaos parameters and the RNG stream are threaded exactly as in the
source.  Transcendental primitives are abstract: cosF/sinF for the split
angle, pow2F for Math.pow(2, _) in the size threshold, piQ for Math.PI,
nrm for Point.norm inside peel.  The longest-edge scan compares squared
distances instead of Euclidean distances, which selects the same vertex
because the square root is strictly monotone. -/

/-- Squared Euclidean distance (Point.distance squared). -/
def distSqQ (a b : PointQ) : ℚ := (a.x - b.x) ^ 2 + (a.y - b.y) ^ 2

/-- The longest-edge scan of createAlleys: maxLength starts at -1, each
strictly longer edge captures its first vertex. -/
def longestEdgeVertex (poly : List PointQ) : PointQ :=
  ((List.range poly.length).foldl
    (fun best i =>
      let p0 := poly.getD i default
      let p1 := poly.getD ((i + 1) % poly.length) default
      let len := distSqQ p0 p1
      if best.2 < len then (p0, len) else best)
    (default, -1)).1

/-- Polygon.next: the vertex after v (index lookup plus one, cyclic). -/
def polyNext (poly : List PointQ) (v : PointQ) : PointQ :=
  poly.getD ((poly.indexOf v + 1) % poly.length) default

/-- interpolate from geom-utils.ts. -/
def interpolateQ (p1 p2 : PointQ) (ratio : ℚ) : PointQ :=
  ⟨p1.x + (p2.x - p1.x) * ratio, p1.y + (p2.y - p1.y) * ratio⟩

/-- bisect from src/geom/cutter.ts: cut along the line through the point
at the given ratio on the edge after `vertex`, rotated by `angle` from
the perpendicular. -/
def bisectQ (cosF sinF : ℚ → ℚ) (nrm : PointQ → ℚ → PointQ)
    (poly : List PointQ) (vertex : PointQ) (ratio angle gap : ℚ) :
    List (List PointQ) :=
  let next := polyNext poly vertex
  let p1 := interpolateQ vertex next ratio
  let d : PointQ := ⟨next.x - vertex.x, next.y - vertex.y⟩
  let cosB := cosF angle
  let sinB := sinF angle
  let vx := d.x * cosB - d.y * sinB
  let vy := d.y * cosB + d.x * sinB
  let p2 : PointQ := ⟨p1.x - vy, p1.y + vx⟩
  cutQ nrm poly p1 p2 gap

/-- ALLEY = 0.6, the gap used for split alleys. -/
def alleyWidth : ℚ := 3 / 5

/-- The parameters of createAlleys that every recursive call passes along
unchanged, together with the abstract transcendental primitives. -/
structure AlleyCtx where
  cosF : ℚ → ℚ
  sinF : ℚ → ℚ
  pow2F : ℚ → ℚ
  piQ : ℚ
  nrm : PointQ → ℚ → PointQ
  minSq : ℚ
  gridChaos : ℚ
  sizeChaos : ℚ
  emptyProb : ℚ

mutual

/-- createAlleys from src/wards/ward.ts (fueled): find the longest edge,
bisect at a chaos-perturbed ratio and angle, then for each half either
keep it as a building footprint (if its area is below the randomized
threshold, it has at least 4 vertices, and the empty-probability draw
fails) or recurse.  Fuel exhaustion returns none; the source has no such
bound and simply recurses. -/
def createAlleysF (ctx : AlleyCtx) :
    ℕ → List PointQ → ℤ → Bool → Option (List (List PointQ) × ℤ)
  | 0, _, _, _ => none
  | fuel + 1, p, s0, split =>
    let v := longestEdgeVertex p
    let spread := 8 / 10 * ctx.gridChaos
    let f1 := lcgFloat s0
    let s1 := lcgNext s0
    let ratio := (1 - spread) / 2 + f1 * spread
    let angleSpread := ctx.piQ / 6 * ctx.gridChaos *
      (if squareQ p < ctx.minSq * 4 then 0 else 1)
    let f2 := lcgFloat s1
    let s2 := lcgNext s1
    let b := (f2 - 1 / 2) * angleSpread
    let halves := bisectQ ctx.cosF ctx.sinF ctx.nrm p v ratio b
      (if split then alleyWidth else 0)
    alleysHalves ctx fuel halves s2

/-- The loop of createAlleys over the two halves, threading the RNG. -/
def alleysHalves (ctx : AlleyCtx) :
    ℕ → List (List PointQ) → ℤ → Option (List (List PointQ) × ℤ)
  | _, [], s => some ([], s)
  | fuel, half :: rest, s =>
    let f3 := lcgFloat s
    let s3 := lcgNext s
    if squareQ half < ctx.minSq * ctx.pow2F (4 * ctx.sizeChaos * (f3 - 1 / 2))
    then
      if 4 ≤ half.length then
        let keep := ¬ (lcgFloat s3 < ctx.emptyProb)
        let s4 := lcgNext s3
        match alleysHalves ctx fuel rest s4 with
        | some (bs, sOut) =>
          some ((if keep then [half] else []) ++ bs, sOut)
        | none => none
      else
        alleysHalves ctx fuel rest s3
    else
      let f4 := lcgFloat s3
      let s4 := lcgNext s3
      let f5 := lcgFloat s4
      let s5 := lcgNext s4
      let split2 := ctx.minSq / (f4 * f5) < squareQ half
      match createAlleysF ctx fuel half s5 split2 with
      | some (bs1, s6) =>
        match alleysHalves ctx fuel rest s6 with
        | some (bs2, sOut) => some (bs1 ++ bs2, sOut)
        | none => none
      | none => none

end

/-- The pentagon (0,0),(4,0),(4,2),(2,3),(0,2): its longest edge is the
bottom, whose perpendicular bisector passes exactly through the opposite
vertex (2,3), giving three boundary crossings and a degenerate cut. -/
def alleyPentagon : List PointQ :=
  [⟨0, 0⟩, ⟨4, 0⟩, ⟨4, 2⟩, ⟨2, 3⟩, ⟨0, 2⟩]

/-! ### CurtainWall gate construction, from src/generator/curtain-wall.ts

Points are identity handles (ℕ ids): containment and the reserved check
are by identity in the source.  The outer-patch splitting and the
post-hoc gate smoothing inside selectGate mutate model.patches and point
coordinates but never touch the entrance list or the gate list, so they
do not appear in this embedding of the gate-count behaviour.  The
bearing-directed selection computes its best index with atan2; it is
abstracted as an oracle `pick`, reduced modulo the current candidate
count exactly as the source always produces an index in range. -/

/-- Entrance candidates: wall vertices shared by more than one enclosed
patch (or, for a single enclosed patch, every non-reserved vertex). -/
def cwEntrances (shape : List ℕ) (patches : List (List ℕ))
    (reserved : List ℕ) : List ℕ :=
  if 1 < patches.length then
    shape.filter (fun v => !(reserved.contains v) &&
      1 < (patches.filter (fun p => p.contains v)).length)
  else
    shape.filter (fun v => !(reserved.contains v))

/-- The entrance-removal step of selectGate: the chosen entrance and its
immediate neighbours leave the candidate pool (three splice shapes for
first / last / middle positions). -/
def removeEntrances (es : List ℕ) (idx : ℕ) : List ℕ :=
  if idx = 0 then (es.drop 2).dropLast
  else if idx = es.length - 1 then (es.take (es.length - 2)).drop 1
  else es.take (idx - 1) ++ es.drop (idx + 2)

/-- The bearing-directed phase: for each of nB road-entry bearings, pick
the angle-closest entrance (oracle index, always in range), select it as
a gate and remove its neighbourhood; break when no candidates remain. -/
def cwBearingsPhase (pick : ℕ → ℕ) :
    ℕ → List ℕ → List ℕ → List ℕ × List ℕ
  | 0, es, gates => (es, gates)
  | k + 1, es, gates =>
    if es.length < 1 then (es, gates)
    else
      let idx := pick k % es.length
      cwBearingsPhase pick k (removeEntrances es idx)
        (gates ++ [es.getD idx 0])

theorem removeEntrances_length (es : List ℕ) (idx : ℕ)
    (h3 : 3 ≤ es.length) (hidx : idx < es.length) :
    (removeEntrances es idx).length = es.length - 3 := by
  unfold removeEntrances
  split_ifs with h0 hlast
  · rw [List.length_dropLast, List.length_drop]
    omega
  · rw [List.length_drop, List.length_take]
    omega
  · rw [List.length_append, List.length_take, List.length_drop]
    omega

/-- The random phase: while at least 3 candidates remain, draw a uniform
index (rng.int(0, entrances.length), the exact LCG draw), select the gate
and remove its neighbourhood. -/
def cwRandomLoop (s : ℤ) (es gates : List ℕ) : List ℕ × List ℕ × ℤ :=
  if h3 : 3 ≤ es.length then
    let nxt := lcgNext s
    let idx := nxt.toNat * es.length / 2147483647
    cwRandomLoop nxt (removeEntrances es idx) (gates ++ [es.getD idx 0])
  else (es, gates, s)
termination_by es.length
decreasing_by
  have hnx : (lcgNext s).toNat < 2147483647 := by
    have hmod : lcgNext s % 2147483647 = lcgNext s := by
      unfold lcgNext lcgN lcgG
      omega
    omega
  have hidx : (lcgNext s).toNat * es.length / 2147483647 < es.length := by
    rw [Nat.div_lt_iff_lt_mul (by norm_num)]
    have hpos : 0 < es.length := by omega
    calc (lcgNext s).toNat * es.length
        ≤ 2147483646 * es.length :=
          Nat.mul_le_mul_right _ (by omega)
      _ < 2147483647 * es.length :=
          Nat.mul_lt_mul_of_lt_of_le (by norm_num) (le_refl es.length) hpos
      _ = es.length * 2147483647 := Nat.mul_comm _ _
  rw [removeEntrances_length es _ h3 hidx]
  omega

/-- CurtainWall.buildGates (the gate-count behaviour): compute the
entrance candidates, fail on zero candidates, run the bearing phase then
the random phase, and fail if no gate was selected. -/
def buildGatesE (pick : ℕ → ℕ) (nB : ℕ) (s : ℤ) (shape : List ℕ)
    (patches : List (List ℕ)) (reserved : List ℕ) :
    Except String (List ℕ) :=
  let entrances := cwEntrances shape patches reserved
  if entrances.length = 0 then .error "Bad walled area shape!"
  else
    let p1 := cwBearingsPhase pick nB entrances []
    let p2 := cwRandomLoop s p1.1 p1.2
    if p2.2.1.length = 0 then .error "Bad walled area shape!"
    else .ok p2.2.1

/-! ### Weighted graph and A* pathfinding, from src/geom/graph.ts

Nodes are identity handles (ℕ ids).  A graph is the list of existing
Node objects (univ) plus, per node, its links map as an association list
in insertion order.  The Map operations set/get keep insertion order and
overwrite in place; the open set is a FIFO array (push at the end, shift
from the front), exactly as in the source. -/

/-- Map.set on an association list: overwrite in place or append. -/
def setA {β : Type} : List (ℕ × β) → ℕ → β → List (ℕ × β)
  | [], k, v => [(k, v)]
  | (k0, v0) :: t, k, v =>
    if k0 = k then (k0, v) :: t else (k0, v0) :: setA t k v

/-- Map.get on an association list. -/
def lookupA {β : Type} : List (ℕ × β) → ℕ → Option β
  | [], _ => none
  | (k0, v0) :: t, k => if k0 = k then some v0 else lookupA t k

/-- A graph: the Node objects that exist, and the links of each. -/
structure GraphE where
  univ : List ℕ
  adjList : List (ℕ × List (ℕ × ℚ))

/-- The links map of a node (empty for an unknown id). -/
def adjOf (g : GraphE) (v : ℕ) : List (ℕ × ℚ) :=
  (lookupA g.adjList v).getD []

/-- The neighbour-relaxation step in the body of the A* while loop:
skip closed neighbours; push unseen neighbours to the open set; skip
neighbours whose recorded score already beats the tentative one;
otherwise record the new parent and score. -/
def expandStep (closed : List ℕ) (cur : ℕ) (curScore : ℚ)
    (st : List ℕ × List (ℕ × ℕ) × List (ℕ × ℚ)) (link : ℕ × ℚ) :
    List ℕ × List (ℕ × ℕ) × List (ℕ × ℚ) :=
  if link.1 ∈ closed then st
  else
    let score := curScore + link.2
    if link.1 ∉ st.1 then
      (st.1 ++ [link.1], setA st.2.1 link.1 cur, setA st.2.2 link.1 score)
    else
      match lookupA st.2.2 link.1 with
      | some gnb =>
        if gnb ≤ score then st
        else (st.1, setA st.2.1 link.1 cur, setA st.2.2 link.1 score)
      | none => (st.1, setA st.2.1 link.1 cur, setA st.2.2 link.1 score)

/-- Graph.buildPath: follow cameFrom links from the goal (fuel bounds the
chain by the size of the map, which the acyclic parent chain respects). -/
def buildPathAux (cf : List (ℕ × ℕ)) : ℕ → ℕ → List ℕ → List ℕ
  | 0, _, acc => acc
  | fuel + 1, cur, acc =>
    match lookupA cf cur with
    | some prev => buildPathAux cf fuel prev (acc ++ [prev])
    | none => acc

def buildPath (cf : List (ℕ × ℕ)) (cur : ℕ) : List ℕ :=
  buildPathAux cf (cf.length + 1) cur [cur]

/-- The A* while loop.  Fuel exhaustion yields none (outer); a failed
search yields some none (the null of the source); success yields the
goal-first path.  The source loop needs no fuel: the fuel argument is
shown sufficient whenever link targets live in univ. -/
def aStarLoop (g : GraphE) (goal : ℕ) :
    ℕ → List ℕ → List ℕ → List (ℕ × ℕ) → List (ℕ × ℚ) →
      Option (Option (List ℕ))
  | fuel, closed, openS, cf, gs =>
    match openS with
    | [] => some none
    | cur :: rest =>
      if cur = goal then some (some (buildPath cf cur))
      else
        match fuel with
        | 0 => none
        | fuel + 1 =>
          let closed2 := closed ++ [cur]
          let st := (adjOf g cur).foldl
            (expandStep closed2 cur ((lookupA gs cur).getD 0)) (rest, cf, gs)
          aStarLoop g goal fuel closed2 st.1 st.2.1 st.2.2

/-- Graph.aStar: closed set preloaded with the exclusion list, open set
seeded with start, gScore(start) = 0. -/
def aStar (g : GraphE) (start goal : ℕ) (exclude : List ℕ) :
    Option (List ℕ) :=
  (aStarLoop g goal (g.univ.length + 1) exclude [start] [] [(start, 0)]).join

/-- A path from a to c through the graph whose nodes after the first
avoid the list C (the reachability notion decided by aStar: excluded
nodes are never entered, but the search still leaves its start). -/
inductive ReachAvoid (g : GraphE) (C : List ℕ) : ℕ → ℕ → Prop where
  | refl (a : ℕ) : ReachAvoid g C a a
  | step {a c : ℕ} (b : ℕ) (w : ℚ) (hedge : (b, w) ∈ adjOf g a)
      (hb : b ∉ C) (h : ReachAvoid g C b c) : ReachAvoid g C a c

/-- The free-node budget of the search: existing nodes neither open nor
closed. -/
def freeSet (g : GraphE) (openS closed : List ℕ) : Finset ℕ :=
  g.univ.toFinset \ (openS.toFinset ∪ closed.toFinset)

/-- The 4-node test graph: A-B weight 1, A-C weight 10, B-D weight 1,
C-D weight 1, links in insertion order of the symmetric link calls. -/
def g4 : GraphE :=
  ⟨[0, 1, 2, 3],
    [(0, [(1, 1), (2, 10)]),
     (1, [(0, 1), (3, 1)]),
     (2, [(0, 10), (3, 1)]),
     (3, [(1, 1), (2, 1)])]⟩

/-! ### Heap model for the mutation footprint of Polygon.cut

Point objects and vertex arrays live in stores indexed by allocation
order; ids play the role of object references.  Point.add, subtract and
scale return fresh points, Point.norm clones before normalising, and the
Polygon constructor copies the array it is given, so the only heap
effects of cut and peel are fresh allocations and writes (unshift, push)
to the freshly allocated half arrays. -/

structure Heap where
  pts : List PointQ
  arrs : List (List ℕ)

/-- Read a vertex array (a list of point ids) from the heap. -/
def derefArr (h : Heap) (aid : ℕ) : List ℕ := h.arrs.getD aid []

/-- Read the coordinates of a point object from the heap. -/
def derefPt (h : Heap) (pid : ℕ) : PointQ := h.pts.getD pid default

/-- Read the coordinates of a list of point objects. -/
def derefPts (h : Heap) (ids : List ℕ) : List PointQ := ids.map (derefPt h)

/-- new Point(...): append to the point store, returning the fresh id. -/
def allocPt (h : Heap) (p : PointQ) : Heap × ℕ :=
  (⟨h.pts ++ [p], h.arrs⟩, h.pts.length)

/-- new Polygon(a): the constructor copies a into a fresh array. -/
def allocArr (h : Heap) (a : List ℕ) : Heap × ℕ :=
  (⟨h.pts, h.arrs ++ [a]⟩, h.arrs.length)

/-- In-place update of an existing vertex array (unshift and push). -/
def writeArr (h : Heap) (aid : ℕ) (a : List ℕ) : Heap :=
  ⟨h.pts, h.arrs.set aid a⟩

/-- The shared body of Polygon.cut at the heap level: scan the receiver's
dereferenced boundary for crossings; with exactly two, allocate the two
intersection points and the two half arrays (the constructor copy of the
slice, then the unshift and push writes on that fresh array); otherwise
allocate the constructor copy of the receiver's vertex list.  Returns the
half array ids, the fresh point ids and the ordering flag on success, or
the copy's id in the degenerate case. -/
def cutRefCore (h : Heap) (self : ℕ) (p1 p2 : PointQ) :
    Heap × (ℕ ⊕ (ℕ × ℕ × ℕ × ℕ × Bool)) :=
  let ids := derefArr h self
  let vs := derefPts h ids
  match cutCrossings vs p1 p2 with
  | [(e1, r1), (e2, r2)] =>
    let dx := p2.x - p1.x
    let dy := p2.y - p1.y
    let point1 : PointQ := ⟨p1.x + dx * r1, p1.y + dy * r1⟩
    let point2 : PointQ := ⟨p1.x + dx * r2, p1.y + dy * r2⟩
    let h1 := allocPt h point1
    let h2 := allocPt h1.1 point2
    let seg1 := (ids.drop (e1 + 1)).take (e2 - e1)
    let h3 := allocArr h2.1 seg1
    let h4 := writeArr h3.1 h3.2 (h1.2 :: (seg1 ++ [h2.2]))
    let seg2 := ids.drop (e2 + 1) ++ ids.take (e1 + 1)
    let h5 := allocArr h4 seg2
    let h6 := writeArr h5.1 h5.2 (h2.2 :: (seg2 ++ [h1.2]))
    let ve := vs.getD e1 default
    let ve1 := vs.getD ((e1 + 1) % vs.length) default
    (h6, Sum.inr (h3.2, h5.2, h1.2, h2.2,
      decide (0 < dx * (ve1.y - ve.y) - dy * (ve1.x - ve.x))))
  | _ =>
    let ha := allocArr h ids
    (ha.1, Sum.inl ha.2)

/-- Polygon.cut with gap 0 at the heap level (the form used by peel). -/
def cutRef0 (h : Heap) (self : ℕ) (p1 p2 : PointQ) : Heap × List ℕ :=
  match cutRefCore h self p1 p2 with
  | (hf, Sum.inr (a1, a2, _, _, flag)) =>
    (hf, if flag then [a1, a2] else [a2, a1])
  | (hf, Sum.inl a) => (hf, [a])

/-- Polygon.peel at the heap level: indexOf compares references, here
ids; the two offset points are only read by the inner gap-0 cut, and
Point.norm (abstracted as nrm) clones its receiver. -/
def peelRef (nrm : PointQ → ℚ → PointQ) (h : Heap) (self : ℕ) (vid : ℕ)
    (d : ℚ) : Heap × ℕ :=
  let ids := derefArr h self
  let i1 := ids.indexOf vid
  let i2 := if i1 = ids.length - 1 then 0 else i1 + 1
  let v1 := derefPt h vid
  let v2 := derefPt h (ids.getD i2 0)
  let v : PointQ := ⟨v2.x - v1.x, v2.y - v1.y⟩
  let n := nrm ⟨-v.y, v.x⟩ d
  let r := cutRef0 h self ⟨v1.x + n.x, v1.y + n.y⟩ ⟨v2.x + n.x, v2.y + n.y⟩
  (r.1, r.2.headD 0)

/-- Polygon.cut at the heap level with arbitrary gap: on the two-crossing
path each half is peeled by gap / 2 when gap is positive, and the pair is
ordered by the cross test. -/
def cutRef (nrm : PointQ → ℚ → PointQ) (h : Heap) (self : ℕ)
    (p1 p2 : PointQ) (gap : ℚ) : Heap × List ℕ :=
  match cutRefCore h self p1 p2 with
  | (hf, Sum.inr (a1, a2, pid1, pid2, flag)) =>
    let g1 := if 0 < gap then peelRef nrm hf a1 pid2 (gap / 2) else (hf, a1)
    let g2 := if 0 < gap then peelRef nrm g1.1 a2 pid1 (gap / 2)
      else (g1.1, a2)
    (g2.1, if flag then [g1.2, g2.2] else [g2.2, g1.2])
  | (hf, Sum.inl a) => (hf, [a])

/-- Heap extension: every already-allocated point and array keeps its
value and the stores only grow. -/
def heapExt (h h2 : Heap) : Prop :=
  h.pts.length ≤ h2.pts.length ∧ h.arrs.length ≤ h2.arrs.length ∧
    (∀ i, i < h.pts.length → h2.pts[i]? = h.pts[i]?) ∧
    (∀ j, j < h.arrs.length → h2.arrs[j]? = h.arrs[j]?)

/-- A one-polygon heap holding the unit square. -/
def sqHeap : Heap := ⟨unitSquare, [[0, 1, 2, 3]]⟩

/-! ### Theorems about the RNG and the retry loop -/

theorem seededRandomInit_some (s now : ℤ) :
    seededRandomInit (some s) now = if s ≤ 0 then 1 else s := rfl

theorem attemptState_shift
    (build : ModelState Patch Wall Street Topo Pt →
        Option String × ModelState Patch Wall Street Topo Pt)
    (s s1 : ModelState Patch Wall Street Topo Pt) (err : String)
    (hb : build s = (some err, s1)) (k : ℕ) :
    attemptState build s (k + 1) = attemptState build (resetState s1) k := by
  induction k with
  | zero => simp [attemptState, hb]
  | succ j ihj =>
    simp only [attemptState] at ihj ⊢
    rw [ihj]

theorem mkModelState_now_irrelevant (p : GenerationParams) (n1 n2 : ℤ) :
    (mkModelState p n1 : ModelState Patch Wall Street Topo Pt) =
      mkModelState p n2 := by
  simp [mkModelState, seededRandomInit]

/-- C1: With an explicitly supplied integer seed, the whole generation run
is a pure function of the parameter record: the single SeededRandom state
is `seededRandomInit (some p.seed)`, which ignores the ambient clock (the
only environment input), so two independent calls to Model.generate --
made at arbitrary times now1 and now2, with any six-phase build body
drawing from the threaded RNG state -- start from bit-for-bit equal model
states and return bit-for-bit equal results (patches, walls, gates,
streets, roads, arteries, geometry are all fields of the returned state). -/
theorem generate_deterministic
    (build : ModelState Patch Wall Street Topo Pt →
        Option String × ModelState Patch Wall Street Topo Pt)
    (p : GenerationParams) (now1 now2 : ℤ) :
    (mkModelState p now1 : ModelState Patch Wall Street Topo Pt) =
        mkModelState p now2 ∧
      generate build p now1 = generate build p now2 := by
  refine ⟨mkModelState_now_irrelevant p now1 now2, ?_⟩
  unfold generate
  rw [mkModelState_now_irrelevant p now1 now2]

/-- C8: the retry loop of Model.generate.  (1) The catch block resets the
patch/wall/street state to empty but keeps the RNG state (never
reseeding); (2) if all 20 attempts fail the result is exactly the fatal
error, carrying no model; (3) if attempt k < 20 is the first success, the
returned model is precisely the state produced by that build call, whose
input drew on the RNG state threaded through all failed attempts; (4) the
RNG state entering attempt k+1 is the RNG state as the failed attempt k
left it. -/
theorem generate_retry_spec
    (build : ModelState Patch Wall Street Topo Pt →
        Option String × ModelState Patch Wall Street Topo Pt)
    (p : GenerationParams) (now : ℤ) :
    ((∀ s : ModelState Patch Wall Street Topo Pt,
        (resetState s).rngState = s.rngState ∧
        (resetState s).patches = [] ∧ (resetState s).inner = [] ∧
        (resetState s).citadel = none ∧ (resetState s).plaza = none ∧
        (resetState s).border = none ∧ (resetState s).wall = none ∧
        (resetState s).gates = [] ∧ (resetState s).streets = [] ∧
        (resetState s).roads = [] ∧ (resetState s).arteries = [] ∧
        (resetState s).topology = none) ∧
      ((∀ k, k < maxAttempts →
          (build (attemptState build (mkModelState p now) k)).1.isSome) →
        generate build p now = .error fatalMsg)) ∧
      ((∀ k, k < maxAttempts →
        (∀ j, j < k →
          (build (attemptState build (mkModelState p now) j)).1.isSome) →
        (build (attemptState build (mkModelState p now) k)).1 = none →
        generate build p now =
          .ok (build (attemptState build (mkModelState p now) k)).2) ∧
      (∀ k, (attemptState build (mkModelState p now) (k + 1)).rngState =
          ((build (attemptState build (mkModelState p now) k)).2).rngState)) := by
  have hloop : ∀ (n : ℕ) (s : ModelState Patch Wall Street Topo Pt),
      (∀ k, k < n → (build (attemptState build s k)).1.isSome) →
      generateLoop build n s = .error fatalMsg := by
    intro n
    induction n with
    | zero => intro s _; rfl
    | succ m ih =>
      intro s hall
      have h0 := hall 0 (Nat.succ_pos m)
      unfold generateLoop
      rcases hb : build s with ⟨e, s1⟩
      rcases e with _ | err
      · exfalso; simp [attemptState, hb] at h0
      · simp only
        have := ih (resetState s1) ?_
        · exact this
        · intro k hk
          have := hall (k + 1) (Nat.succ_lt_succ hk)
          rwa [attemptState_shift build s s1 err hb k] at this
  have hfirst : ∀ (n : ℕ) (s : ModelState Patch Wall Street Topo Pt)
      (k : ℕ), k < n →
      (∀ j, j < k → (build (attemptState build s j)).1.isSome) →
      (build (attemptState build s k)).1 = none →
      generateLoop build n s = .ok (build (attemptState build s k)).2 := by
    intro n
    induction n with
    | zero => intro s k hk; omega
    | succ m ih =>
      intro s k hk hprev hok
      unfold generateLoop
      rcases hb : build s with ⟨e, s1⟩
      rcases e with _ | err
      · have : k = 0 := by
          by_contra hne
          have := hprev 0 (Nat.pos_of_ne_zero hne)
          simp [attemptState, hb] at this
        subst this
        simp only [attemptState] at hok ⊢
        rw [hb] at hok ⊢
      · have hkpos : k ≠ 0 := by
          intro h0
          subst h0
          simp [attemptState, hb] at hok
        rcases Nat.exists_eq_succ_of_ne_zero hkpos with ⟨j, rfl⟩
        simp only
        have := ih (resetState s1) j (Nat.lt_of_succ_lt_succ hk) ?_ ?_
        · rw [this, attemptState_shift build s s1 err hb j]
        · intro i hi
          have := hprev (i + 1) (Nat.succ_lt_succ hi)
          rwa [attemptState_shift build s s1 err hb i] at this
        · rwa [attemptState_shift build s s1 err hb j] at hok
  refine ⟨⟨fun s => ⟨rfl, rfl, rfl, rfl, rfl, rfl, rfl, rfl, rfl, rfl, rfl, rfl⟩,
      fun hall => hloop maxAttempts _ hall⟩,
    fun k hk hprev hok => hfirst maxAttempts _ k hk hprev hok,
    fun k => rfl⟩

/-- Witness for the retry theorem: with a build body that always raises a
structural failure, generate returns exactly the fatal error. -/
theorem generate_retry_spec_witness :
    @generate Unit Unit Unit Unit Unit
        (fun s => (some "Bad citadel shape!", s))
        ⟨⟨5, true, true, true, false, false, false⟩, 42⟩ 0 =
      .error fatalMsg := by
  exact (generate_retry_spec (fun s => (some "Bad citadel shape!", s))
      ⟨⟨5, true, true, true, false, false, false⟩, 42⟩ 0).1.2
    (fun k _ => by simp)

/-- C9: a non-positive explicit seed is coerced to state 1 by the
SeededRandom constructor, so the generator started from seed s ≤ 0
produces exactly the stream of seed 1, and two Model runs that differ
only in such a seed versus seed 1 generate identical settlements. -/
theorem seed_nonpos_same_stream (s : ℤ) (hs : s ≤ 0) :
    (∀ now now2 : ℤ, seededRandomInit (some s) now =
        seededRandomInit (some 1) now2) ∧
      (∀ (now : ℤ) (n : ℕ), lcgIter (seededRandomInit (some s) now) n =
        lcgIter (seededRandomInit (some 1) now) n) ∧
      (∀ (build : ModelState Patch Wall Street Topo Pt →
            Option String × ModelState Patch Wall Street Topo Pt)
        (pp : PipelineParams) (now : ℤ),
        generate build ⟨pp, s⟩ now = generate build ⟨pp, 1⟩ now) := by
  have hinit : ∀ now now2 : ℤ, seededRandomInit (some s) now =
      seededRandomInit (some 1) now2 := by
    intro now now2
    simp [seededRandomInit, hs]
  refine ⟨hinit, fun now n => by rw [hinit now now], ?_⟩
  intro build pp now
  unfold generate mkModelState
  rw [hinit now now]

/-- Witness: seed 0 and seed 1 give the same constructor state, the same
5-step stream, and the same generated settlement for a concrete build. -/
theorem seed_nonpos_same_stream_witness :
    (0 : ℤ) ≤ 0 ∧
      seededRandomInit (some 0) 7 = seededRandomInit (some 1) 99 ∧
      lcgIter (seededRandomInit (some 0) 7) 5 =
        lcgIter (seededRandomInit (some 1) 7) 5 ∧
      @generate Unit Unit Unit Unit Unit (fun s => (none, s))
          ⟨⟨4, true, false, true, false, false, false⟩, 0⟩ 3 =
        generate (fun s => (none, s))
          ⟨⟨4, true, false, true, false, false, false⟩, 1⟩ 3 := by
  have h := @seed_nonpos_same_stream Unit Unit Unit Unit Unit 0 (by decide)
  exact ⟨by decide, h.1 7 99, h.2.1 7 5,
    h.2.2 (fun s => (none, s)) ⟨4, true, false, true, false, false, false⟩ 3⟩

/-! ### Theorems about Polygon.cut -/

theorem cutPieces_eq_none_iff (poly : List PointQ) (p1 p2 : PointQ) :
    cutPieces poly p1 p2 = none ↔ (cutCrossings poly p1 p2).length ≠ 2 := by
  unfold cutPieces
  rcases h : cutCrossings poly p1 p2 with _ | ⟨⟨e1, r1⟩, _ | ⟨⟨e2, r2⟩, _ | ⟨c, t⟩⟩⟩ <;>
    simp

/-- C5: Polygon.cut intersects the boundary with the infinite line
through the two given points; whenever the number of boundary crossings
is not exactly two it returns the original polygon unsplit as a
one-element result (a sentinel, not an exception: the embedding is a
total function), and with exactly two crossings it returns two pieces. -/
theorem cut_degenerate_unsplit (nrm : PointQ → ℚ → PointQ)
    (poly : List PointQ) (p1 p2 : PointQ) (gap : ℚ) :
    ((cutCrossings poly p1 p2).length ≠ 2 →
        cutQ nrm poly p1 p2 gap = [poly]) ∧
      ((cutCrossings poly p1 p2).length = 2 →
        (cutQ nrm poly p1 p2 gap).length = 2) := by
  constructor
  · intro h
    have := (cutPieces_eq_none_iff poly p1 p2).2 h
    unfold cutQ
    rw [this]
  · intro h
    unfold cutQ
    rcases hp : cutPieces poly p1 p2 with _ | ⟨h1, h2, pt1, pt2, flag⟩
    · exact absurd h ((cutPieces_eq_none_iff poly p1 p2).1 hp)
    · rcases flag <;> simp

/-- Witness: a vertical line missing the unit square (zero crossings)
returns the square unsplit; a vertical line through it (two crossings)
returns two pieces. -/
theorem cut_degenerate_unsplit_witness :
    ((cutCrossings unitSquare ⟨5, 0⟩ ⟨5, 1⟩).length ≠ 2 ∧
        cutQ (fun v _ => v) unitSquare ⟨5, 0⟩ ⟨5, 1⟩ 0 = [unitSquare]) ∧
      ((cutCrossings unitSquare ⟨1/2, -1⟩ ⟨1/2, 2⟩).length = 2 ∧
        (cutQ (fun v _ => v) unitSquare ⟨1/2, -1⟩ ⟨1/2, 2⟩ 0).length = 2) :=
  have h0 : (cutCrossings unitSquare ⟨5, 0⟩ ⟨5, 1⟩).length ≠ 2 := by
    norm_num [cutCrossings, cutCrossFn, intersectLines, unitSquare,
      List.range_succ, List.filterMap_cons]
  have h2 : (cutCrossings unitSquare ⟨1/2, -1⟩ ⟨1/2, 2⟩).length = 2 := by
    norm_num [cutCrossings, cutCrossFn, intersectLines, unitSquare,
      List.range_succ, List.filterMap_cons]
  ⟨⟨h0,
      (cut_degenerate_unsplit (fun v _ => v) unitSquare ⟨5, 0⟩ ⟨5, 1⟩ 0).1 h0⟩,
    ⟨h2,
      (cut_degenerate_unsplit (fun v _ => v) unitSquare ⟨1/2, -1⟩
          ⟨1/2, 2⟩ 0).2 h2⟩⟩

theorem lastQ_append_cons (l1 : List PointQ) (c : PointQ) (t2 : List PointQ) :
    lastQ (l1 ++ c :: t2) = lastQ (c :: t2) := by
  induction l1 with
  | nil => rfl
  | cons a t ih =>
    rcases t with _ | ⟨b, t'⟩
    · rfl
    · show lastQ (a :: ((b :: t') ++ c :: t2)) = lastQ (c :: t2)
      rw [show (b :: t') ++ c :: t2 = b :: (t' ++ c :: t2) from rfl]
      rw [show lastQ (a :: b :: (t' ++ c :: t2)) =
        lastQ (b :: (t' ++ c :: t2)) from rfl]
      exact ih

theorem pathCross_cons_headQ (a : PointQ) (l : List PointQ) (h : l ≠ []) :
    pathCross (a :: l) = crossQ a (headQ l) + pathCross l := by
  rcases l with _ | ⟨b, t⟩
  · exact absurd rfl h
  · rfl

theorem pathCross_append (l1 : List PointQ) (c : PointQ) (t2 : List PointQ)
    (h1 : l1 ≠ []) :
    pathCross (l1 ++ c :: t2) =
      pathCross l1 + crossQ (lastQ l1) c + pathCross (c :: t2) := by
  induction l1 with
  | nil => exact absurd rfl h1
  | cons a t ih =>
    rcases t with _ | ⟨b, t'⟩
    · show pathCross (a :: c :: t2) = pathCross [a] + crossQ (lastQ [a]) c + pathCross (c :: t2)
      rw [show pathCross (a :: c :: t2) = crossQ a c + pathCross (c :: t2) from rfl]
      show crossQ a c + pathCross (c :: t2) = 0 + crossQ a c + pathCross (c :: t2)
      ring
    · show pathCross (a :: ((b :: t') ++ c :: t2)) = _
      rw [show (b :: t') ++ c :: t2 = b :: (t' ++ c :: t2) from rfl]
      rw [show pathCross (a :: b :: (t' ++ c :: t2)) =
        crossQ a b + pathCross (b :: (t' ++ c :: t2)) from rfl]
      rw [show (b :: (t' ++ c :: t2)) = ((b :: t') ++ c :: t2) from rfl]
      rw [ih (by simp)]
      rw [show pathCross (a :: b :: t') = crossQ a b + pathCross (b :: t') from rfl]
      rw [show lastQ (a :: b :: t') = lastQ (b :: t') from rfl]
      ring

theorem cyclicCross_append (a c : PointQ) (t1 t2 : List PointQ) :
    cyclicCross ((a :: t1) ++ (c :: t2)) =
      pathCross (a :: t1) + pathCross (c :: t2) +
        crossQ (lastQ (a :: t1)) c + crossQ (lastQ (c :: t2)) a := by
  show pathCross ((a :: t1) ++ (c :: t2)) +
      crossQ (lastQ ((a :: t1) ++ (c :: t2))) a = _
  rw [pathCross_append (a :: t1) c t2 (by simp),
    lastQ_append_cons (a :: t1) c t2]
  ring

theorem cyclicCross_rotate (l1 l2 : List PointQ) :
    cyclicCross (l1 ++ l2) = cyclicCross (l2 ++ l1) := by
  rcases l1 with _ | ⟨a, t1⟩
  · simp
  rcases l2 with _ | ⟨c, t2⟩
  · simp
  rw [cyclicCross_append a c t1 t2, cyclicCross_append c a t2 t1]
  ring

theorem squareQ_eq_half (l : List PointQ) :
    squareQ l = cyclicCross l * (1 / 2) := by
  rcases l with _ | ⟨a, _ | ⟨b, _ | ⟨c, t⟩⟩⟩
  · show (0 : ℚ) = 0 * (1 / 2)
    ring
  · show (0 : ℚ) = (pathCross [a] + crossQ (lastQ [a]) a) * (1 / 2)
    show (0 : ℚ) = (0 + crossQ a a) * (1 / 2)
    simp [crossQ]
  · show (0 : ℚ) = (pathCross [a, b] + crossQ (lastQ [a, b]) a) * (1 / 2)
    show (0 : ℚ) = ((crossQ a b + 0) + crossQ b a) * (1 / 2)
    simp only [crossQ]
    ring
  · show (if (a :: b :: c :: t).length < 3 then (0 : ℚ)
      else cyclicCross (a :: b :: c :: t) * (1 / 2)) = _
    rw [if_neg (by simp)]

/-- The key collinearity fact: if p lies on the line through b and c at
parameter s, the triangle b-p-c is degenerate. -/
theorem crossQ_on_segment (b c : PointQ) (s : ℚ) :
    crossQ b ⟨b.x + s * (c.x - b.x), b.y + s * (c.y - b.y)⟩ +
        crossQ ⟨b.x + s * (c.x - b.x), b.y + s * (c.y - b.y)⟩ c =
      crossQ b c := by
  simp only [crossQ]
  ring

theorem headQ_eq_head? (l : List PointQ) : headQ l = l.head?.getD default := by
  cases l <;> rfl

theorem headQ_drop (l : List PointQ) (n : ℕ) (h : n < l.length) :
    headQ (l.drop n) = l.getD n default := by
  rw [headQ_eq_head?, List.head?_drop, List.getD_eq_getElem?_getD]

theorem headQ_take (l : List PointQ) (m : ℕ) (hm : 0 < m) (h : l ≠ []) :
    headQ (l.take m) = headQ l := by
  rcases l with _ | ⟨a, t⟩
  · exact absurd rfl h
  · rcases m with _ | m
    · omega
    · rfl

theorem headQ_append_left (l1 l2 : List PointQ) (h : l1 ≠ []) :
    headQ (l1 ++ l2) = headQ l1 := by
  rcases l1 with _ | ⟨a, t⟩
  · exact absurd rfl h
  · rfl

theorem lastQ_getD (l : List PointQ) (h : l ≠ []) :
    lastQ l = l.getD (l.length - 1) default := by
  induction l with
  | nil => exact absurd rfl h
  | cons a t ih =>
    rcases t with _ | ⟨b, t'⟩
    · rfl
    · rw [show lastQ (a :: b :: t') = lastQ (b :: t') from rfl, ih (by simp)]
      show (b :: t').getD ((b :: t').length - 1) default =
        (a :: b :: t').getD ((a :: b :: t').length - 1) default
      have hlen : (a :: b :: t').length - 1 = ((b :: t').length - 1) + 1 := by
        simp
      rw [hlen]
      rfl

theorem lastQ_take (l : List PointQ) (m : ℕ) (hm : 0 < m)
    (hml : m ≤ l.length) :
    lastQ (l.take m) = l.getD (m - 1) default := by
  have hne : l.take m ≠ [] := by
    apply List.ne_nil_of_length_pos
    rw [List.length_take]
    omega
  rw [lastQ_getD _ hne, List.length_take]
  have h1 : min m l.length - 1 = m - 1 := by omega
  rw [h1, List.getD_eq_getElem?_getD, List.getD_eq_getElem?_getD]
  have hlt : m - 1 < (l.take m).length := by
    rw [List.length_take]; omega
  rw [List.getElem?_eq_getElem hlt, List.getElem?_eq_getElem (by omega)]
  rw [List.getElem_take]

theorem lastQ_append_ne (l1 l2 : List PointQ) (h2 : l2 ≠ []) :
    lastQ (l1 ++ l2) = lastQ l2 := by
  rcases l2 with _ | ⟨c, t2⟩
  · exact absurd rfl h2
  · exact lastQ_append_cons l1 c t2

/-- Correctness of intersectLines: the returned parameters satisfy both
line equations, so both lines pass through the same point. -/
theorem intersectLines_spec {x1 y1 dx1 dy1 x2 y2 dx2 dy2 : ℚ} {t : PointQ}
    (h : intersectLines x1 y1 dx1 dy1 x2 y2 dx2 dy2 = some t) :
    x1 + t.x * dx1 = x2 + t.y * dx2 ∧ y1 + t.x * dy1 = y2 + t.y * dy2 := by
  by_cases hd : dx1 * dy2 - dy1 * dx2 = 0
  · simp [intersectLines, hd] at h
  · simp only [intersectLines, hd, if_false, if_neg hd] at h
    by_cases hdx : dx1 = 0
    · have hdy1 : dy1 ≠ 0 := by
        intro h0
        apply hd
        rw [hdx, h0]
        ring
      have hdx2 : dx2 ≠ 0 := by
        intro h0
        apply hd
        rw [hdx, h0]
        ring
      rw [if_neg (by simp [hdx])] at h
      injection h with ht
      subst ht
      subst hdx
      dsimp only
      constructor
      · field_simp
        ring
      · field_simp
        ring
    · rw [if_pos hdx] at h
      injection h with ht
      subst ht
      dsimp only
      constructor
      · field_simp
        ring
      · field_simp
        ring

/-- An index-tagging filterMap that yields a single pair found it in the
list, at its own index. -/
theorem filterMap_eq_single {α : Type} {f : ℕ → Option (ℕ × α)}
    (hf : ∀ i q, f i = some q → q.1 = i) :
    ∀ (l : List ℕ) (p : ℕ × α), l.filterMap f = [p] →
      p.1 ∈ l ∧ f p.1 = some p := by
  intro l
  induction l with
  | nil => intro p h; simp at h
  | cons a t ih =>
    intro p h
    rw [List.filterMap_cons] at h
    cases hfa : f a with
    | none =>
      rw [hfa] at h
      obtain ⟨hm, hf2⟩ := ih p h
      exact ⟨by simp [hm], hf2⟩
    | some r =>
      rw [hfa] at h
      injection h with h1 h2
      subst h1
      have hpa : r.1 = a := hf a r hfa
      rw [hpa]
      exact ⟨by simp, hfa⟩

/-- An index-tagging filterMap yielding exactly two pairs: both come from
their own indices, in increasing order, the second a member of the
list. -/
theorem filterMap_eq_pair {α : Type} {f : ℕ → Option (ℕ × α)}
    (hf : ∀ i q, f i = some q → q.1 = i) :
    ∀ (l : List ℕ), l.Pairwise (· < ·) → ∀ (p q : ℕ × α),
      l.filterMap f = [p, q] →
      f p.1 = some p ∧ f q.1 = some q ∧ p.1 < q.1 ∧ q.1 ∈ l := by
  intro l
  induction l with
  | nil => intro _ p q h; simp at h
  | cons a t ih =>
    intro hpw p q h
    rw [List.filterMap_cons] at h
    cases hfa : f a with
    | none =>
      rw [hfa] at h
      obtain ⟨h1, h2, h3, h4⟩ := ih (List.Pairwise.sublist (by simp) hpw) p q h
      exact ⟨h1, h2, h3, by simp [h4]⟩
    | some r =>
      rw [hfa] at h
      injection h with h1 h2
      subst h1
      obtain ⟨hm, hfq⟩ := filterMap_eq_single hf t q h2
      have hpa : r.1 = a := hf a r hfa
      refine ⟨by rw [hpa]; exact hfa, hfq, ?_, by simp [hm]⟩
      rw [hpa]
      exact (List.pairwise_cons.1 hpw).1 q.1 hm

theorem getD_drop (l : List PointQ) (i j : ℕ) :
    (l.drop i).getD j default = l.getD (i + j) default := by
  rw [List.getD_eq_getElem?_getD, List.getD_eq_getElem?_getD,
    List.getElem?_drop]

theorem cutCrossFn_fst (poly : List PointQ) (p1 p2 : PointQ) :
    ∀ i q, cutCrossFn poly p1 p2 i = some q → q.1 = i := by
  intro i q hq
  simp only [cutCrossFn] at hq
  rcases hInt : intersectLines p1.x p1.y (p2.x - p1.x) (p2.y - p1.y)
      (poly.getD i default).x (poly.getD i default).y
      ((poly.getD ((i + 1) % poly.length) default).x - (poly.getD i default).x)
      ((poly.getD ((i + 1) % poly.length) default).y - (poly.getD i default).y)
    with _ | t
  · rw [hInt] at hq
    simp at hq
  · rw [hInt] at hq
    dsimp only at hq
    by_cases hcond : 0 ≤ t.y ∧ t.y ≤ 1
    · rw [if_pos hcond] at hq
      injection hq with hq1
      rw [← hq1]
    · rw [if_neg hcond] at hq
      simp at hq

theorem cutCrossFn_some_elim (poly : List PointQ) (p1 p2 : PointQ)
    (i : ℕ) (r : ℚ) (h : cutCrossFn poly p1 p2 i = some (i, r)) :
    ∃ t : PointQ,
      intersectLines p1.x p1.y (p2.x - p1.x) (p2.y - p1.y)
          (poly.getD i default).x (poly.getD i default).y
          ((poly.getD ((i + 1) % poly.length) default).x -
            (poly.getD i default).x)
          ((poly.getD ((i + 1) % poly.length) default).y -
            (poly.getD i default).y) = some t ∧
        t.x = r := by
  simp only [cutCrossFn] at h
  rcases hInt : intersectLines p1.x p1.y (p2.x - p1.x) (p2.y - p1.y)
      (poly.getD i default).x (poly.getD i default).y
      ((poly.getD ((i + 1) % poly.length) default).x - (poly.getD i default).x)
      ((poly.getD ((i + 1) % poly.length) default).y - (poly.getD i default).y)
    with _ | t
  · rw [hInt] at h
    simp at h
  · rw [hInt] at h
    dsimp only at h
    by_cases hcond : 0 ≤ t.y ∧ t.y ≤ 1
    · rw [if_pos hcond] at h
      injection h with h1
      refine ⟨t, rfl, ?_⟩
      have := congrArg Prod.snd h1
      exact this
    · rw [if_neg hcond] at h
      simp at h

theorem cyclicCross_split (mid tl : List PointQ) (pt1 pt2 : PointQ)
    (hm : mid ≠ []) (ht : tl ≠ [])
    (hbr1 : crossQ (lastQ tl) pt1 + crossQ pt1 (headQ mid) =
      crossQ (lastQ tl) (headQ mid))
    (hbr2 : crossQ (lastQ mid) pt2 + crossQ pt2 (headQ tl) =
      crossQ (lastQ mid) (headQ tl)) :
    cyclicCross (pt1 :: (mid ++ [pt2])) + cyclicCross (pt2 :: (tl ++ [pt1])) =
      cyclicCross (mid ++ tl) := by
  rcases mid with _ | ⟨m0, mt⟩
  · exact absurd rfl hm
  rcases tl with _ | ⟨t0, tt⟩
  · exact absurd rfl ht
  have hA : pt1 :: ((m0 :: mt) ++ [pt2]) = (pt1 :: m0 :: mt) ++ [pt2] := by
    simp
  have hB : pt2 :: ((t0 :: tt) ++ [pt1]) = (pt2 :: t0 :: tt) ++ [pt1] := by
    simp
  rw [hA, hB, cyclicCross_append pt1 pt2 (m0 :: mt) [],
    cyclicCross_append pt2 pt1 (t0 :: tt) [],
    cyclicCross_append m0 t0 mt tt]
  rw [show pathCross (pt1 :: m0 :: mt) =
    crossQ pt1 m0 + pathCross (m0 :: mt) from rfl]
  rw [show pathCross (pt2 :: t0 :: tt) =
    crossQ pt2 t0 + pathCross (t0 :: tt) from rfl]
  rw [show lastQ (pt1 :: m0 :: mt) = lastQ (m0 :: mt) from rfl]
  rw [show lastQ (pt2 :: t0 :: tt) = lastQ (t0 :: tt) from rfl]
  rw [show pathCross [pt2] = 0 from rfl, show pathCross [pt1] = 0 from rfl,
    show lastQ [pt2] = pt2 from rfl, show lastQ [pt1] = pt1 from rfl]
  have e1 : headQ (m0 :: mt) = m0 := rfl
  have e2 : headQ (t0 :: tt) = t0 := rfl
  rw [e1] at hbr1
  rw [e2] at hbr2
  simp only [crossQ] at hbr1 hbr2 ⊢
  linarith [hbr1, hbr2]

/-- The two halves produced by a successful cut have signed areas summing
to the signed area of the input polygon. -/
theorem cutPieces_signed_area (poly : List PointQ) (p1 p2 : PointQ)
    (h1 h2 : List PointQ) (pt1 pt2 : PointQ) (flag : Bool)
    (hp : cutPieces poly p1 p2 = some (h1, h2, pt1, pt2, flag)) :
    squareQ h1 + squareQ h2 = squareQ poly := by
  simp only [cutPieces] at hp
  rcases hc : cutCrossings poly p1 p2 with
    _ | ⟨⟨e1, r1⟩, _ | ⟨⟨e2, r2⟩, _ | ⟨c0, rest⟩⟩⟩ <;> rw [hc] at hp <;>
    try simp at hp
  obtain ⟨hh1, hh2, hpt1, hpt2, hflag⟩ := hp
  rw [hpt1, hpt2] at hh1 hh2
  rw [← List.append_assoc] at hh2
  -- characterise the two crossings
  have hpair := filterMap_eq_pair (cutCrossFn_fst poly p1 p2)
    (List.range poly.length) (List.pairwise_lt_range poly.length)
    (e1, r1) (e2, r2) hc
  obtain ⟨hFe1, hFe2, hlt, hmem⟩ := hpair
  have he2n : e2 < poly.length := List.mem_range.1 hmem
  have he1n : e1 + 1 < poly.length := by omega
  have hn0 : 0 < poly.length := by omega
  -- intersection facts for edge e1
  obtain ⟨t1, hInt1, ht1x⟩ := cutCrossFn_some_elim poly p1 p2 e1 r1 hFe1
  obtain ⟨t2, hInt2, ht2x⟩ := cutCrossFn_some_elim poly p1 p2 e2 r2 hFe2
  have hspec1 := intersectLines_spec hInt1
  have hspec2 := intersectLines_spec hInt2
  set v0 := poly.getD e1 default with hv0
  set v1 := poly.getD ((e1 + 1) % poly.length) default with hv1
  set w0 := poly.getD e2 default with hw0
  set w1 := poly.getD ((e2 + 1) % poly.length) default with hw1
  -- the freshly built intersection points lie on the edge lines
  have hpt1param : pt1 = PointQ.mk (v0.x + t1.y * (v1.x - v0.x))
      (v0.y + t1.y * (v1.y - v0.y)) := by
    rw [← hpt1]
    have hx := hspec1.1
    have hy := hspec1.2
    rw [ht1x] at hx hy
    rw [PointQ.mk.injEq]
    constructor
    · rw [← hx]
      ring
    · rw [← hy]
      ring
  have hpt2param : pt2 = PointQ.mk (w0.x + t2.y * (w1.x - w0.x))
      (w0.y + t2.y * (w1.y - w0.y)) := by
    rw [← hpt2]
    have hx := hspec2.1
    have hy := hspec2.2
    rw [ht2x] at hx hy
    rw [PointQ.mk.injEq]
    constructor
    · rw [← hx]
      ring
    · rw [← hy]
      ring
  -- name the two pieces of the boundary
  set mid := (poly.drop (e1 + 1)).take (e2 - e1) with hmid
  set tl := poly.drop (e2 + 1) ++ poly.take (e1 + 1) with htl
  have hmid_ne : mid ≠ [] := by
    apply List.ne_nil_of_length_pos
    rw [hmid, List.length_take, List.length_drop]
    omega
  have htl_ne : tl ≠ [] := by
    apply List.ne_nil_of_length_pos
    rw [htl, List.length_append, List.length_take, List.length_drop]
    omega
  -- endpoints of the two pieces
  have hheadmid : headQ mid = v1 := by
    rw [hmid, headQ_take _ _ (by omega)
      (List.ne_nil_of_length_pos (by rw [List.length_drop]; omega)),
      headQ_drop poly (e1 + 1) he1n, hv1, Nat.mod_eq_of_lt he1n]
  have hlastmid : lastQ mid = w0 := by
    rw [hmid, lastQ_take _ _ (by omega)
      (by rw [List.length_drop]; omega), getD_drop]
    rw [hw0]
    congr 1
    omega
  have hlasttl : lastQ tl = v0 := by
    rw [htl, lastQ_append_ne _ _
      (List.ne_nil_of_length_pos (by rw [List.length_take]; omega)),
      lastQ_take poly (e1 + 1) (by omega) (by omega)]
    rw [hv0]
    congr 1
  have hheadtl : headQ tl = w1 := by
    by_cases hcase : e2 + 1 < poly.length
    · rw [htl, headQ_append_left _ _
        (List.ne_nil_of_length_pos (by rw [List.length_drop]; omega)),
        headQ_drop poly (e2 + 1) hcase, hw1, Nat.mod_eq_of_lt hcase]
    · have hlen : poly.length = e2 + 1 := by omega
      rw [htl, List.drop_eq_nil_of_le (by omega), List.nil_append,
        headQ_take _ _ (by omega) (List.ne_nil_of_length_pos hn0)]
      have : headQ poly = poly.getD 0 default := by
        rw [← List.drop_zero poly, headQ_drop poly 0 hn0]
        rw [List.drop_zero]
      rw [this, hw1, hlen, Nat.mod_self]
  -- the collinearity brackets
  have hbr1 : crossQ (lastQ tl) pt1 + crossQ pt1 (headQ mid) =
      crossQ (lastQ tl) (headQ mid) := by
    rw [hlasttl, hheadmid, hpt1param]
    exact crossQ_on_segment v0 v1 t1.y
  have hbr2 : crossQ (lastQ mid) pt2 + crossQ pt2 (headQ tl) =
      crossQ (lastQ mid) (headQ tl) := by
    rw [hlastmid, hheadtl, hpt2param]
    exact crossQ_on_segment w0 w1 t2.y
  -- the polygon is a rotation of mid ++ tl
  have hrot : cyclicCross (mid ++ tl) = cyclicCross poly := by
    have hdrop : poly.drop (e1 + 1) = mid ++ poly.drop (e2 + 1) := by
      rw [hmid]
      conv_lhs => rw [← List.take_append_drop (e2 - e1) (poly.drop (e1 + 1))]
      congr 1
      rw [List.drop_drop]
      congr 1
      omega
    have hdecomp : poly = poly.take (e1 + 1) ++ (mid ++ poly.drop (e2 + 1)) := by
      conv_lhs => rw [← List.take_append_drop (e1 + 1) poly]
      rw [hdrop]
    calc cyclicCross (mid ++ tl)
        = cyclicCross (mid ++ (poly.drop (e2 + 1) ++ poly.take (e1 + 1))) := by
          rw [htl]
      _ = cyclicCross ((mid ++ poly.drop (e2 + 1)) ++ poly.take (e1 + 1)) := by
          rw [List.append_assoc]
      _ = cyclicCross (poly.take (e1 + 1) ++ (mid ++ poly.drop (e2 + 1))) :=
          cyclicCross_rotate _ _
      _ = cyclicCross poly := by rw [← hdecomp]
  -- assemble
  have hsplit := cyclicCross_split mid tl pt1 pt2 hmid_ne htl_ne hbr1 hbr2
  rw [squareQ_eq_half, squareQ_eq_half, squareQ_eq_half]
  rw [← hh1, ← hh2]
  have hgoal : cyclicCross (pt1 :: (mid ++ [pt2])) +
      cyclicCross (pt2 :: (tl ++ [pt1])) = cyclicCross poly := by
    rw [hsplit, hrot]
  linarith [hgoal]

/-- C4 amended: whenever Polygon.cut with gap 0 returns two polygons,
their SIGNED areas sum exactly (over the rationals) to the signed area of
the input polygon; the absolute-area version additionally needs the two
halves to carry the same orientation, which non-simple polygons can
violate. -/
theorem cut_signed_area_conservation (nrm : PointQ → ℚ → PointQ)
    (poly : List PointQ) (p1 p2 : PointQ) (A B : List PointQ)
    (h : cutQ nrm poly p1 p2 0 = [A, B]) :
    squareQ A + squareQ B = squareQ poly := by
  simp only [cutQ] at h
  rcases hp : cutPieces poly p1 p2 with _ | ⟨h1, h2, pt1, pt2, flag⟩
  · rw [hp] at h
    simp at h
  · rw [hp] at h
    dsimp only at h
    rw [if_neg (lt_irrefl (0 : ℚ)), if_neg (lt_irrefl (0 : ℚ))] at h
    have hsum := cutPieces_signed_area poly p1 p2 h1 h2 pt1 pt2 flag hp
    rcases flag with _ | _
    · rw [if_neg (by simp)] at h
      injection h with hA hrest
      injection hrest with hB
      rw [← hA, ← hB]
      linarith [hsum]
    · rw [if_pos rfl] at h
      injection h with hA hrest
      injection hrest with hB
      rw [← hA, ← hB]
      linarith [hsum]


/-- Witness: cutting the unit square along the vertical line x = 1/2
produces two halves whose signed areas 1/2 and 1/2 sum to the area 1 of
the square. -/
theorem cut_signed_area_conservation_witness :
    cutQ (fun v _ => v) unitSquare ⟨1/2, -1⟩ ⟨1/2, 2⟩ 0 =
        [[⟨1/2, 1⟩, ⟨0, 1⟩, ⟨0, 0⟩, ⟨1/2, 0⟩],
          [⟨1/2, 0⟩, ⟨1, 0⟩, ⟨1, 1⟩, ⟨1/2, 1⟩]] ∧
      squareQ [⟨1/2, 1⟩, ⟨0, 1⟩, ⟨0, 0⟩, ⟨1/2, 0⟩] +
          squareQ [⟨1/2, 0⟩, ⟨1, 0⟩, ⟨1, 1⟩, ⟨1/2, 1⟩] =
        squareQ unitSquare := by
  have hcut : cutQ (fun v _ => v) unitSquare ⟨1/2, -1⟩ ⟨1/2, 2⟩ 0 =
      [[⟨1/2, 1⟩, ⟨0, 1⟩, ⟨0, 0⟩, ⟨1/2, 0⟩],
        [⟨1/2, 0⟩, ⟨1, 0⟩, ⟨1, 1⟩, ⟨1/2, 1⟩]] := by
    norm_num [cutQ, cutPieces, cutCrossings, cutCrossFn, intersectLines,
      unitSquare, List.range_succ, List.filterMap_cons]
  exact ⟨hcut,
    cut_signed_area_conservation (fun v _ => v) unitSquare ⟨1/2, -1⟩
      ⟨1/2, 2⟩ _ _ hcut⟩

/-- C4 counterexample: on the self-intersecting quadrilateral
(0,0),(2,2),(2,0),(0,3) the vertical line x = 1 yields a successful cut
whose two halves have signed areas 7/4 and -3/4; the absolute areas sum
to 5/2, but the absolute area of the polygon is 1, so the claimed
absolute-area conservation is false as stated. -/
theorem cut_abs_area_counterexample :
    (cutQ (fun v _ => v) bowtiePoly ⟨1, -5⟩ ⟨1, 5⟩ 0).length = 2 ∧
      |squareQ ((cutQ (fun v _ => v) bowtiePoly ⟨1, -5⟩ ⟨1, 5⟩ 0).getD 0 [])| +
          |squareQ ((cutQ (fun v _ => v) bowtiePoly ⟨1, -5⟩ ⟨1, 5⟩ 0).getD 1 [])| ≠
        |squareQ bowtiePoly| := by
  have hcut : cutQ (fun v _ => v) bowtiePoly ⟨1, -5⟩ ⟨1, 5⟩ 0 =
      [[⟨1, 3/2⟩, ⟨0, 3⟩, ⟨0, 0⟩, ⟨1, 1⟩],
        [⟨1, 1⟩, ⟨2, 2⟩, ⟨2, 0⟩, ⟨1, 3/2⟩]] := by
    norm_num [cutQ, cutPieces, cutCrossings, cutCrossFn, intersectLines,
      bowtiePoly, List.range_succ, List.filterMap_cons]
  rw [hcut]
  constructor
  · rfl
  · norm_num [squareQ, cyclicCross, pathCross, lastQ, crossQ, bowtiePoly,
      abs_of_nonneg]

/-! ### Theorems about createAlleys -/

theorem pentagon_longest_edge : longestEdgeVertex alleyPentagon = ⟨0, 0⟩ := by
  norm_num [longestEdgeVertex, distSqQ, alleyPentagon, List.range_succ]

theorem pentagon_next : polyNext alleyPentagon ⟨0, 0⟩ = ⟨4, 0⟩ := by
  norm_num [polyNext, alleyPentagon, List.indexOf_cons, beq_iff_eq]

theorem pentagon_square : squareQ alleyPentagon = 10 := by
  norm_num [squareQ, cyclicCross, pathCross, lastQ, crossQ, alleyPentagon]

/-- The perpendicular bisector of the longest edge of the pentagon meets
its boundary three times (it passes exactly through the vertex (2,3)),
so bisect returns the pentagon unsplit, with unchanged area. -/
theorem bisect_pentagon_unsplit (cosF sinF : ℚ → ℚ)
    (nrm : PointQ → ℚ → PointQ) (gap : ℚ)
    (hcos : cosF 0 = 1) (hsin : sinF 0 = 0) :
    bisectQ cosF sinF nrm alleyPentagon ⟨0, 0⟩ (1 / 2) 0 gap =
      [alleyPentagon] := by
  simp only [bisectQ, pentagon_next, hcos, hsin]
  norm_num [interpolateQ]
  have hlen : (cutCrossings alleyPentagon ⟨2, 0⟩ ⟨2, 4⟩).length ≠ 2 := by
    norm_num [cutCrossings, cutCrossFn, intersectLines, alleyPentagon,
      List.range_succ, List.filterMap_cons]
  have hnone := (cutPieces_eq_none_iff alleyPentagon ⟨2, 0⟩ ⟨2, 4⟩).2 hlen
  simp [cutQ, hnone]

/-- C3: createAlleys does NOT terminate on every polygon of finite
positive area.  On the pentagon (0,0),(4,0),(4,2),(2,3),(0,2) (area 10)
with gridChaos = 0 and sizeChaos = 0 and minSq = 1, the bisect step is
degenerate on every call: it returns the input unsplit with EQUAL area
(refuting the claimed strict decrease), the area stays above the constant
threshold, and the recursion re-enters the same polygon forever -- the
fueled embedding exhausts every fuel bound.  The hypotheses pin the
abstract primitives at the values the source computes exactly:
Math.cos(0) = 1, Math.sin(0) = 0, Math.pow(2, 0) = 1. -/
theorem createAlleys_divergence (cosF sinF pow2F : ℚ → ℚ) (piQ : ℚ)
    (nrm : PointQ → ℚ → PointQ) (emptyProb : ℚ)
    (hcos : cosF 0 = 1) (hsin : sinF 0 = 0) (hpow : pow2F 0 = 1) :
    (∀ gap, bisectQ cosF sinF nrm alleyPentagon ⟨0, 0⟩ (1 / 2) 0 gap =
        [alleyPentagon]) ∧
      ∀ (fuel : ℕ) (s : ℤ) (split : Bool),
        createAlleysF ⟨cosF, sinF, pow2F, piQ, nrm, 1, 0, 0, emptyProb⟩
          fuel alleyPentagon s split = none := by
  refine ⟨fun gap => bisect_pentagon_unsplit cosF sinF nrm gap hcos hsin, ?_⟩
  intro fuel
  induction fuel with
  | zero => intro s split; simp only [createAlleysF]
  | succ n ih =>
    intro s split
    simp only [createAlleysF, pentagon_longest_edge]
    norm_num
    rw [bisect_pentagon_unsplit cosF sinF nrm _ hcos hsin]
    simp only [alleysHalves]
    norm_num [hpow, pentagon_square]
    rw [ih]

/-- Witness: with the primitives instantiated at their exact values, the
degenerate bisect and a concrete diverging run (fuel 3, seed state 42). -/
theorem createAlleys_divergence_witness :
    bisectQ (fun _ => 1) (fun _ => 0) (fun v _ => v) alleyPentagon
        ⟨0, 0⟩ (1 / 2) 0 0 = [alleyPentagon] ∧
      createAlleysF
          ⟨fun _ => 1, fun _ => 0, fun _ => 1, 0, fun v _ => v, 1, 0, 0,
            1 / 25⟩ 3 alleyPentagon 42 true = none := by
  have h := createAlleys_divergence (fun _ => 1) (fun _ => 0) (fun _ => 1)
    0 (fun v _ => v) (1 / 25) rfl rfl rfl
  exact ⟨h.1 0, h.2 3 42 true⟩

/-! ### Theorems about CurtainWall.buildGates -/

theorem cwBearingsPhase_gates_le (pick : ℕ → ℕ) :
    ∀ (k : ℕ) (es gates : List ℕ),
      gates.length ≤ (cwBearingsPhase pick k es gates).2.length := by
  intro k
  induction k with
  | zero => intro es gates; exact le_refl _
  | succ m ih =>
    intro es gates
    simp only [cwBearingsPhase]
    by_cases h : es.length < 1
    · rw [if_pos h]
    · rw [if_neg h]
      calc gates.length
          ≤ (gates ++ [es.getD (pick m % es.length) 0]).length := by simp
        _ ≤ _ := ih _ _

theorem cwBearingsPhase_pos (pick : ℕ → ℕ) (k : ℕ) (es gates : List ℕ)
    (hk : 1 ≤ k) (hes : es ≠ []) :
    gates.length + 1 ≤ (cwBearingsPhase pick k es gates).2.length := by
  rcases k with _ | m
  · omega
  · simp only [cwBearingsPhase]
    rw [if_neg (by have := List.length_pos.2 hes; omega)]
    have hmono := cwBearingsPhase_gates_le pick m
      (removeEntrances es (pick m % es.length))
      (gates ++ [es.getD (pick m % es.length) 0])
    calc gates.length + 1
        = (gates ++ [es.getD (pick m % es.length) 0]).length := by simp
      _ ≤ _ := hmono

theorem cwRandomLoop_skip (s : ℤ) (es gates : List ℕ)
    (h3 : ¬ 3 ≤ es.length) : cwRandomLoop s es gates = (es, gates, s) := by
  rw [cwRandomLoop, dif_neg h3]

theorem lcgDraw_lt (s : ℤ) (len : ℕ) (hlen : 0 < len) :
    (lcgNext s).toNat * len / 2147483647 < len := by
  have hnx : (lcgNext s).toNat < 2147483647 := by
    have hmod : lcgNext s % 2147483647 = lcgNext s := by
      unfold lcgNext lcgN lcgG
      omega
    omega
  rw [Nat.div_lt_iff_lt_mul (by norm_num)]
  calc (lcgNext s).toNat * len
      ≤ 2147483646 * len := Nat.mul_le_mul_right _ (by omega)
    _ < 2147483647 * len :=
        Nat.mul_lt_mul_of_lt_of_le (by norm_num) (le_refl len) hlen
    _ = len * 2147483647 := Nat.mul_comm _ _

theorem cwRandomLoop_gates_le_aux : ∀ (n : ℕ) (s : ℤ) (es gates : List ℕ),
    es.length ≤ n →
    gates.length ≤ (cwRandomLoop s es gates).2.1.length := by
  intro n
  induction n with
  | zero =>
    intro s es gates hle
    rw [cwRandomLoop_skip s es gates (by omega)]
  | succ m ih =>
    intro s es gates hle
    by_cases h3 : 3 ≤ es.length
    · rw [cwRandomLoop, dif_pos h3]
      show gates.length ≤ (cwRandomLoop (lcgNext s)
        (removeEntrances es ((lcgNext s).toNat * es.length / 2147483647))
        (gates ++
          [es.getD ((lcgNext s).toNat * es.length / 2147483647) 0])).2.1.length
      refine le_trans (by simp) (ih _ _ _ ?_)
      rw [removeEntrances_length es _ h3
        (lcgDraw_lt s es.length (by omega))]
      omega
    · rw [cwRandomLoop_skip s es gates h3]

theorem cwRandomLoop_gates_le (s : ℤ) (es gates : List ℕ) :
    gates.length ≤ (cwRandomLoop s es gates).2.1.length :=
  cwRandomLoop_gates_le_aux es.length s es gates (le_refl _)

theorem cwRandomLoop_enters (s : ℤ) (es gates : List ℕ)
    (h3 : 3 ≤ es.length) :
    gates.length + 1 ≤ (cwRandomLoop s es gates).2.1.length := by
  rw [cwRandomLoop, dif_pos h3]
  show gates.length + 1 ≤ (cwRandomLoop (lcgNext s)
    (removeEntrances es ((lcgNext s).toNat * es.length / 2147483647))
    (gates ++
      [es.getD ((lcgNext s).toNat * es.length / 2147483647) 0])).2.1.length
  refine le_trans (le_of_eq (by simp)) (cwRandomLoop_gates_le _ _ _)

/-- C2 amended: buildGates fails with the Bad-walled-area error exactly
when the candidates cannot produce a gate: zero entrance candidates, or
no approach bearings together with fewer than three candidates (the
random phase only runs while at least 3 remain).  With at least one
bearing and a candidate, or with at least three candidates, at least one
gate is always selected and construction succeeds. -/
theorem buildGates_gate_bounds (pick : ℕ → ℕ) (nB : ℕ) (s : ℤ)
    (shape : List ℕ) (patches : List (List ℕ)) (reserved : List ℕ) :
    (cwEntrances shape patches reserved = [] →
        buildGatesE pick nB s shape patches reserved =
          .error "Bad walled area shape!") ∧
      (cwEntrances shape patches reserved ≠ [] →
        (1 ≤ nB ∨ 3 ≤ (cwEntrances shape patches reserved).length →
          ∃ gates, buildGatesE pick nB s shape patches reserved =
              .ok gates ∧ 1 ≤ gates.length) ∧
          (nB = 0 → (cwEntrances shape patches reserved).length < 3 →
            buildGatesE pick nB s shape patches reserved =
              .error "Bad walled area shape!")) := by
  constructor
  · intro hempty
    unfold buildGatesE
    rw [if_pos (by rw [hempty]; rfl)]
  · intro hne
    have hlen0 : ¬ (cwEntrances shape patches reserved).length = 0 := by
      simpa [List.length_eq_zero] using hne
    constructor
    · intro hcase
      unfold buildGatesE
      rw [if_neg hlen0]
      have hpos : 1 ≤ (cwRandomLoop s
          (cwBearingsPhase pick nB (cwEntrances shape patches reserved) []).1
          (cwBearingsPhase pick nB (cwEntrances shape patches reserved) []).2).2.1.length := by
        rcases Nat.lt_or_ge nB 1 with hnb | hnb
        · have hnb0 : nB = 0 := by omega
          subst hnb0
          have h3 : 3 ≤ (cwEntrances shape patches reserved).length := by
            rcases hcase with h | h
            · omega
            · exact h
          have := cwRandomLoop_enters s (cwEntrances shape patches reserved)
            [] h3
          simpa [cwBearingsPhase] using this
        · have hbear := cwBearingsPhase_pos pick nB
            (cwEntrances shape patches reserved) [] hnb hne
          have hrand := cwRandomLoop_gates_le s
            (cwBearingsPhase pick nB (cwEntrances shape patches reserved) []).1
            (cwBearingsPhase pick nB (cwEntrances shape patches reserved) []).2
          simp only [List.length_nil] at hbear
          omega
      rw [if_neg (by omega)]
      exact ⟨_, rfl, hpos⟩
    · intro hnb0 hlt3
      subst hnb0
      unfold buildGatesE
      rw [if_neg hlen0]
      have hskip := cwRandomLoop_skip s (cwEntrances shape patches reserved)
        [] (by omega)
      simp only [cwBearingsPhase]
      rw [hskip]
      simp

/-- C2 counterexample: a triangular single-patch wall with one reserved
vertex has TWO entrance candidates, yet with no approach bearings zero
gates are selected and buildGates raises the Bad-walled-area failure --
refuting the claim that one or more candidates always yield a gate and
that the failure occurs exactly at zero candidates. -/
theorem buildGates_two_entrances_counterexample :
    cwEntrances [0, 1, 2] [[0, 1, 2]] [0] = [1, 2] ∧
      buildGatesE (fun _ => 0) 0 1 [0, 1, 2] [[0, 1, 2]] [0] =
        .error "Bad walled area shape!" := by
  have h1 : cwEntrances [0, 1, 2] [[0, 1, 2]] [0] = [1, 2] := by decide
  refine ⟨h1, ?_⟩
  have h2 := cwRandomLoop_skip 1 [1, 2] [] (by decide)
  unfold buildGatesE
  rw [if_neg (by rw [h1]; decide)]
  simp only [cwBearingsPhase, h1]
  rw [h2]
  simp

/-- Witness: four candidates with no bearings succeed with a gate; two
candidates with no bearings fail. -/
theorem buildGates_gate_bounds_witness :
    (∃ gates, buildGatesE (fun _ => 0) 0 5 [0, 1, 2, 3] [[0, 1, 2, 3]] [3] =
        .ok gates ∧ 1 ≤ gates.length) ∧
      buildGatesE (fun _ => 0) 0 5 [9, 1, 2] [[9, 1, 2]] [9] =
        .error "Bad walled area shape!" := by
  have h := buildGates_gate_bounds (fun _ => 0) 0 5 [0, 1, 2, 3]
    [[0, 1, 2, 3]] [3]
  have h2 := buildGates_gate_bounds (fun _ => 0) 0 5 [9, 1, 2] [[9, 1, 2]] [9]
  exact ⟨(h.2 (by decide)).1 (Or.inr (by decide)),
    (h2.2 (by decide)).2 rfl (by decide)⟩

/-! ### Theorems about Graph.aStar -/

/-- C6: on the 4-node graph with symmetric edges A-B (1), A-C (10),
B-D (1), C-D (1), aStar(A, D) returns the goal-first 3-node path
[D, B, A] through B, not the route through C. -/
theorem aStar_four_node_path : aStar g4 0 3 [] = some [3, 1, 0] := by
  norm_num [aStar, aStarLoop, expandStep, adjOf, setA, lookupA, buildPath,
    buildPathAux, g4, Option.join]

theorem lookupA_mem {β : Type} : ∀ (l : List (ℕ × β)) (k : ℕ) (v : β),
    lookupA l k = some v → (k, v) ∈ l := by
  intro l
  induction l with
  | nil => intro k v h; simp [lookupA] at h
  | cons p t ih =>
    intro k v h
    rcases p with ⟨k0, v0⟩
    simp only [lookupA] at h
    by_cases hk : k0 = k
    · rw [if_pos hk] at h
      injection h with h1
      subst hk
      subst h1
      exact List.mem_cons_self _ _
    · rw [if_neg hk] at h
      exact List.mem_cons_of_mem _ (ih k v h)

theorem reachAvoid_mono (g : GraphE) {C C2 : List ℕ} {a c : ℕ}
    (hsub : ∀ x, x ∈ C → x ∈ C2) (h : ReachAvoid g C2 a c) :
    ReachAvoid g C a c := by
  induction h with
  | refl a => exact ReachAvoid.refl a
  | step b w hedge hb h ih =>
    exact ReachAvoid.step b w hedge (fun hx => hb (hsub _ hx)) ih

theorem reachAvoid_congr (g : GraphE) {C C2 : List ℕ} {a c : ℕ}
    (hiff : ∀ x, x ∈ C ↔ x ∈ C2) (h : ReachAvoid g C a c) :
    ReachAvoid g C2 a c :=
  reachAvoid_mono g (fun x hx => (hiff x).2 hx) h

/-- Cutting a path at the last visit to c: either the path already avoids
c, or it leaves c by an edge into a node that avoids both c and C. -/
theorem reachAvoid_last_exit (g : GraphE) {C : List ℕ} {a goal : ℕ}
    (c : ℕ) (hgc : goal ≠ c) (h : ReachAvoid g C a goal) :
    ReachAvoid g (c :: C) a goal ∨
      ∃ b w, (b, w) ∈ adjOf g c ∧ b ∉ (c :: C) ∧
        ReachAvoid g (c :: C) b goal := by
  induction h with
  | refl a => exact Or.inl (ReachAvoid.refl a)
  | step b w hedge hb h ih =>
    rcases ih hgc with hfwd | hexit
    · by_cases hbc : b = c
      · subst hbc
        cases hfwd with
        | refl => exact absurd rfl hgc
        | step b2 w2 hedge2 hb2 h2 => exact Or.inr ⟨b2, w2, hedge2, hb2, h2⟩
      · exact Or.inl (ReachAvoid.step b w hedge
          (by simp [hbc, hb]) hfwd)
    · exact Or.inr hexit

/-- What one pass of neighbour relaxation does to the open set: it
appends a duplicate-free batch of previously unseen, unclosed neighbours
of the current node, and afterwards every unclosed neighbour of the
current node is in the open set. -/
theorem expand_spec (closed2 : List ℕ) (cur : ℕ) (curScore : ℚ) :
    ∀ (links : List (ℕ × ℚ)) (op : List ℕ) (cf : List (ℕ × ℕ))
      (gs : List (ℕ × ℚ)),
      ∃ pushed : List ℕ,
        (links.foldl (expandStep closed2 cur curScore) (op, cf, gs)).1 =
            op ++ pushed ∧
          pushed.Nodup ∧
          (∀ v ∈ pushed, v ∉ op ∧ v ∉ closed2 ∧ ∃ w, (v, w) ∈ links) ∧
          (∀ v w, (v, w) ∈ links → v ∉ closed2 → v ∈ op ++ pushed) := by
  intro links
  induction links with
  | nil =>
    intro op cf gs
    exact ⟨[], by simp, by simp, by simp, by simp⟩
  | cons l tl ih =>
    intro op cf gs
    rw [List.foldl_cons]
    by_cases hc : l.1 ∈ closed2
    · have hstep : expandStep closed2 cur curScore (op, cf, gs) l =
          (op, cf, gs) := by
        unfold expandStep
        rw [if_pos hc]
      rw [hstep]
      obtain ⟨pushed, h1, h2, h3, h4⟩ := ih op cf gs
      refine ⟨pushed, h1, h2, fun v hv => ?_, fun v w hvw hvc => ?_⟩
      · obtain ⟨ha, hb, w, hw⟩ := h3 v hv
        exact ⟨ha, hb, w, List.mem_cons_of_mem _ hw⟩
      · rcases List.mem_cons.1 hvw with heq | htl
        · exfalso
          apply hvc
          subst heq
          exact hc
        · exact h4 v w htl hvc
    · by_cases hop : l.1 ∈ op
      · have hstep : ∃ cf2 gs2,
            expandStep closed2 cur curScore (op, cf, gs) l = (op, cf2, gs2) := by
          unfold expandStep
          rw [if_neg hc]
          dsimp only
          rw [if_neg (by simpa using hop)]
          rcases hlk : lookupA gs l.1 with _ | gnb
          · exact ⟨_, _, rfl⟩
          · dsimp only
            by_cases hle : gnb ≤ curScore + l.2
            · rw [if_pos hle]
              exact ⟨cf, gs, rfl⟩
            · rw [if_neg hle]
              exact ⟨_, _, rfl⟩
        obtain ⟨cf2, gs2, hstep⟩ := hstep
        rw [hstep]
        obtain ⟨pushed, h1, h2, h3, h4⟩ := ih op cf2 gs2
        refine ⟨pushed, h1, h2, fun v hv => ?_, fun v w hvw hvc => ?_⟩
        · obtain ⟨ha, hb, w, hw⟩ := h3 v hv
          exact ⟨ha, hb, w, List.mem_cons_of_mem _ hw⟩
        · rcases List.mem_cons.1 hvw with heq | htl
          · subst heq
            exact List.mem_append_left _ hop
          · exact h4 v w htl hvc
      · have hstep : expandStep closed2 cur curScore (op, cf, gs) l =
            (op ++ [l.1], setA cf l.1 cur, setA gs l.1 (curScore + l.2)) := by
          unfold expandStep
          rw [if_neg hc]
          dsimp only
          rw [if_pos (by simpa using hop)]
        rw [hstep]
        obtain ⟨pushed, h1, h2, h3, h4⟩ :=
          ih (op ++ [l.1]) (setA cf l.1 cur) (setA gs l.1 (curScore + l.2))
        refine ⟨l.1 :: pushed, ?_, ?_, fun v hv => ?_, fun v w hvw hvc => ?_⟩
        · rw [h1, List.append_assoc]
          rfl
        · refine List.Nodup.cons (fun hmem => ?_) h2
          have := (h3 l.1 hmem).1
          exact this (List.mem_append_right _ (List.mem_cons_self _ _))
        · rcases List.mem_cons.1 hv with rfl | hvp
          · exact ⟨hop, hc, l.2, by simp⟩
          · obtain ⟨ha, hb, w, hw⟩ := h3 v hvp
            refine ⟨fun hvo => ha (List.mem_append_left _ hvo), hb, w,
              List.mem_cons_of_mem _ hw⟩
        · rcases List.mem_cons.1 hvw with heq | htl
          · subst heq
            exact List.mem_append_right _ (List.mem_cons_self _ _)
          · have := h4 v w htl hvc
            rwa [List.append_assoc] at this

/-- One search iteration strictly shrinks the combined open-plus-free
budget: the popped node leaves the open set for the closed set, and each
pushed node moves from the free pool into the open set. -/
theorem freeSet_step (g : GraphE) (cur : ℕ) (rest closed pushed : List ℕ)
    (hnd : pushed.Nodup)
    (hmem : ∀ v ∈ pushed, v ∈ g.univ ∧ v ∉ rest ∧ v ∉ closed ++ [cur]) :
    (freeSet g (rest ++ pushed) (closed ++ [cur])).card + pushed.length ≤
      (freeSet g (cur :: rest) closed).card := by
  have hsub : freeSet g (rest ++ pushed) (closed ++ [cur]) ∪
      pushed.toFinset ⊆ freeSet g (cur :: rest) closed := by
    intro v hv
    rcases Finset.mem_union.1 hv with hfree | hpush
    · simp only [freeSet, Finset.mem_sdiff, Finset.mem_union,
        List.mem_toFinset, List.mem_append, List.mem_cons,
        List.mem_singleton] at hfree ⊢
      tauto
    · rw [List.mem_toFinset] at hpush
      obtain ⟨hu, hr, hcc⟩ := hmem v hpush
      simp only [List.mem_append, List.mem_singleton] at hcc
      simp only [freeSet, Finset.mem_sdiff, Finset.mem_union,
        List.mem_toFinset, List.mem_cons] at *
      tauto
  have hdisj : Disjoint (freeSet g (rest ++ pushed) (closed ++ [cur]))
      pushed.toFinset := by
    rw [Finset.disjoint_left]
    intro v hv hp
    rw [List.mem_toFinset] at hp
    simp only [freeSet, Finset.mem_sdiff, Finset.mem_union,
      List.mem_toFinset, List.mem_append] at hv
    exact hv.2 (Or.inl (Or.inr hp))
  calc (freeSet g (rest ++ pushed) (closed ++ [cur])).card + pushed.length
      = (freeSet g (rest ++ pushed) (closed ++ [cur])).card +
          pushed.toFinset.card := by
        rw [List.toFinset_card_of_nodup hnd]
    _ = (freeSet g (rest ++ pushed) (closed ++ [cur]) ∪
          pushed.toFinset).card := (Finset.card_union_of_disjoint hdisj).symm
    _ ≤ (freeSet g (cur :: rest) closed).card := Finset.card_le_card hsub

/-- The frontier characterisation is preserved by one iteration. -/
theorem frontier_step (g : GraphE) (goal cur : ℕ)
    (rest closed pushed : List ℕ) (hgoal : cur ≠ goal)
    (hpush : ∀ v ∈ pushed, v ∉ closed ++ [cur] ∧ ∃ w, (v, w) ∈ adjOf g cur)
    (hcompl : ∀ v w, (v, w) ∈ adjOf g cur → v ∉ closed ++ [cur] →
      v ∈ rest ++ pushed) :
    ((∃ u, u ∈ cur :: rest ∧ ReachAvoid g closed u goal) ↔
      ∃ u, u ∈ rest ++ pushed ∧ ReachAvoid g (closed ++ [cur]) u goal) := by
  have hsets : ∀ x : ℕ, x ∈ cur :: closed ↔ x ∈ closed ++ [cur] := by
    intro x
    simp [List.mem_cons, List.mem_append, or_comm]
  constructor
  · rintro ⟨u, hu, hra⟩
    have hne : goal ≠ cur := fun h => hgoal h.symm
    rcases reachAvoid_last_exit g cur hne hra with hfwd |
      ⟨b, w, hedge, hbc, hrb⟩
    · have hfwd2 : ReachAvoid g (closed ++ [cur]) u goal :=
        reachAvoid_congr g hsets hfwd
      rcases List.mem_cons.1 hu with rfl | hur
      · cases hfwd2 with
        | refl => exact absurd rfl hgoal
        | step b w hedge hb hrb => exact ⟨b, hcompl b w hedge hb, hrb⟩
      · exact ⟨u, List.mem_append_left _ hur, hfwd2⟩
    · have hbc2 : b ∉ closed ++ [cur] := fun hmem => hbc ((hsets b).2 hmem)
      exact ⟨b, hcompl b w hedge hbc2, reachAvoid_congr g hsets hrb⟩
  · rintro ⟨u, hu, hra⟩
    have hra2 : ReachAvoid g closed u goal :=
      reachAvoid_mono g (fun x hx => List.mem_append_left _ hx) hra
    rcases List.mem_append.1 hu with hur | hup
    · exact ⟨u, List.mem_cons_of_mem _ hur, hra2⟩
    · obtain ⟨hnc, w, hedge⟩ := hpush u hup
      exact ⟨cur, List.mem_cons_self _ _,
        ReachAvoid.step u w hedge
          (fun hc => hnc (List.mem_append_left _ hc)) hra2⟩

/-- The search loop always returns within the fuel budget, and returns
null exactly when the goal is unreachable from the open frontier. -/
theorem aStarLoop_spec (g : GraphE) (goal : ℕ)
    (hcl : ∀ e ∈ g.adjList, ∀ p ∈ e.2, p.1 ∈ g.univ) :
    ∀ (fuel : ℕ) (closed openS : List ℕ) (cf : List (ℕ × ℕ))
      (gs : List (ℕ × ℚ)),
      openS.length + (freeSet g openS closed).card ≤ fuel →
      ∃ r, aStarLoop g goal fuel closed openS cf gs = some r ∧
        (r = none ↔ ¬ ∃ u, u ∈ openS ∧ ReachAvoid g closed u goal) := by
  intro fuel
  induction fuel with
  | zero =>
    intro closed openS cf gs hm
    have hemp : openS = [] := List.length_eq_zero.1 (by omega)
    subst hemp
    exact ⟨none, by simp [aStarLoop], by simp⟩
  | succ f ih =>
    intro closed openS cf gs hm
    rcases openS with _ | ⟨cur, rest⟩
    · exact ⟨none, by simp [aStarLoop], by simp⟩
    · by_cases hg : cur = goal
      · subst hg
        refine ⟨some (buildPath cf cur), by simp [aStarLoop], ?_⟩
        constructor
        · intro h
          simp at h
        · intro hno
          exact absurd ⟨cur, List.mem_cons_self _ _, ReachAvoid.refl cur⟩ hno
      · obtain ⟨pushed, hst1, hnd, hprops, hcompl⟩ :=
          expand_spec (closed ++ [cur]) cur ((lookupA gs cur).getD 0)
            (adjOf g cur) rest cf gs
        have hmemF : ∀ v ∈ pushed,
            v ∈ g.univ ∧ v ∉ rest ∧ v ∉ closed ++ [cur] := by
          intro v hv
          obtain ⟨hop, hcl2, w, hlink⟩ := hprops v hv
          refine ⟨?_, hop, hcl2⟩
          unfold adjOf at hlink
          rcases hlk : lookupA g.adjList cur with _ | links
          · rw [hlk] at hlink
            simp at hlink
          · rw [hlk] at hlink
            exact hcl (cur, links) (lookupA_mem _ _ _ hlk) (v, w) hlink
        have hms := freeSet_step g cur rest closed pushed hnd hmemF
        have hm2 : ((adjOf g cur).foldl
            (expandStep (closed ++ [cur]) cur ((lookupA gs cur).getD 0))
            (rest, cf, gs)).1.length +
            (freeSet g ((adjOf g cur).foldl
              (expandStep (closed ++ [cur]) cur ((lookupA gs cur).getD 0))
              (rest, cf, gs)).1 (closed ++ [cur])).card ≤ f := by
          rw [hst1]
          have hlen : (rest ++ pushed).length =
              rest.length + pushed.length := by simp
          simp only [List.length_cons] at hm
          omega
        obtain ⟨r, hres, hiff⟩ := ih (closed ++ [cur]) _ _ _ hm2
        refine ⟨r, ?_, ?_⟩
        · show aStarLoop g goal (f + 1) closed (cur :: rest) cf gs = some r
          simp only [aStarLoop]
          rw [if_neg hg]
          exact hres
        · rw [hiff, hst1]
          have hfr := frontier_step g goal cur rest closed pushed hg
            (fun v hv => ⟨(hprops v hv).2.1, (hprops v hv).2.2⟩) hcompl
          exact not_congr hfr.symm

/-- C7: aStar returns null exactly when the goal is not reachable from
the start along edges whose targets avoid the exclusion list, and when
start equals goal it returns the single-node path. -/
theorem aStar_null_iff (g : GraphE) (start goal : ℕ) (exclude : List ℕ)
    (hcl : ∀ e ∈ g.adjList, ∀ p ∈ e.2, p.1 ∈ g.univ) :
    (aStar g start goal exclude = none ↔
        ¬ ReachAvoid g exclude start goal) ∧
      (start = goal → aStar g start goal exclude = some [goal]) := by
  have hm : ([start] : List ℕ).length +
      (freeSet g [start] exclude).card ≤ g.univ.length + 1 := by
    have h1 : (freeSet g [start] exclude).card ≤ g.univ.toFinset.card :=
      Finset.card_le_card (Finset.sdiff_subset)
    have h2 : g.univ.toFinset.card ≤ g.univ.length := g.univ.toFinset_card_le
    simp only [List.length_singleton]
    omega
  obtain ⟨r, hres, hiff⟩ := aStarLoop_spec g goal hcl (g.univ.length + 1)
    exclude [start] [] [(start, 0)] hm
  constructor
  · unfold aStar
    rw [hres]
    have hjoin : (some r).join = r := rfl
    rw [hjoin, hiff]
    constructor
    · intro hno hra
      exact hno ⟨start, List.mem_singleton_self _, hra⟩
    · rintro hnra ⟨u, hu, hra⟩
      rw [List.mem_singleton.1 hu] at hra
      exact hnra hra
  · intro hsg
    subst hsg
    unfold aStar
    simp [aStarLoop, buildPath, buildPathAux, lookupA, Option.join]

/-- Witness: on the 4-node graph the null characterisation is obtained
with an empty exclusion list, and a start equal to the goal returns the
single-node path. -/
theorem aStar_null_iff_witness :
    (aStar g4 0 3 [] = none ↔ ¬ ReachAvoid g4 [] 0 3) ∧
      aStar g4 2 2 [] = some [2] := by
  have h1 := aStar_null_iff g4 0 3 [] (by decide)
  have h2 := aStar_null_iff g4 2 2 [] (by decide)
  exact ⟨h1.1, h2.2 rfl⟩

theorem heapExt_refl (h : Heap) : heapExt h h :=
  ⟨le_refl _, le_refl _, fun _ _ => rfl, fun _ _ => rfl⟩

theorem heapExt_trans {h1 h2 h3 : Heap} (a : heapExt h1 h2)
    (b : heapExt h2 h3) : heapExt h1 h3 := by
  obtain ⟨ap, aa, api, aai⟩ := a
  obtain ⟨bp, ba, bpi, bai⟩ := b
  exact ⟨le_trans ap bp, le_trans aa ba,
    fun i hi => (bpi i (lt_of_lt_of_le hi ap)).trans (api i hi),
    fun j hj => (bai j (lt_of_lt_of_le hj aa)).trans (aai j hj)⟩

/-- Appending one entry and then overwriting that fresh entry preserves
every existing entry of the store. -/
theorem getElem_append_set {α : Type} (l : List α) (s a : α) (j : ℕ)
    (hj : j < l.length) : ((l ++ [s]).set l.length a)[j]? = l[j]? := by
  rw [List.getElem?_set_ne (by omega), List.getElem?_append_left hj]

/-- The shared cut body only extends the heap. -/
theorem cutRefCore_ext (h : Heap) (self : ℕ) (p1 p2 : PointQ) :
    heapExt h (cutRefCore h self p1 p2).1 := by
  simp only [cutRefCore]
  rcases cutCrossings (derefPts h (derefArr h self)) p1 p2 with
      _ | ⟨⟨e1, r1⟩, _ | ⟨⟨e2, r2⟩, _ | ⟨c, t⟩⟩⟩
  · refine ⟨le_refl _, ?_, fun _ _ => rfl, ?_⟩
    · simp [allocArr]
    · intro j hj
      simp only [allocArr]
      rw [List.getElem?_append_left hj]
  · refine ⟨le_refl _, ?_, fun _ _ => rfl, ?_⟩
    · simp [allocArr]
    · intro j hj
      simp only [allocArr]
      rw [List.getElem?_append_left hj]
  · simp only [allocPt, allocArr, writeArr]
    refine ⟨?_, ?_, ?_, ?_⟩
    · simp
    · simp
    · intro i hi
      rw [List.getElem?_append_left (by simp; omega),
        List.getElem?_append_left hi]
    · intro j hj
      rw [getElem_append_set _ _ _ _ (by simp; omega),
        getElem_append_set _ _ _ _ hj]
  · refine ⟨le_refl _, ?_, fun _ _ => rfl, ?_⟩
    · simp [allocArr]
    · intro j hj
      simp only [allocArr]
      rw [List.getElem?_append_left hj]

/-- The gap-0 cut only extends the heap. -/
theorem cutRef0_ext (h : Heap) (self : ℕ) (p1 p2 : PointQ) :
    heapExt h (cutRef0 h self p1 p2).1 := by
  have hc := cutRefCore_ext h self p1 p2
  unfold cutRef0
  rcases hr : cutRefCore h self p1 p2 with ⟨hf, a | ⟨a1, a2, pid1, pid2, flag⟩⟩
  · rw [hr] at hc
    exact hc
  · rw [hr] at hc
    exact hc

/-- peel only extends the heap. -/
theorem peelRef_ext (nrm : PointQ → ℚ → PointQ) (h : Heap) (self : ℕ)
    (vid : ℕ) (d : ℚ) : heapExt h (peelRef nrm h self vid d).1 := by
  simp only [peelRef]
  exact cutRef0_ext h self _ _

/-- cut with arbitrary gap only extends the heap. -/
theorem cutRef_ext (nrm : PointQ → ℚ → PointQ) (h : Heap) (self : ℕ)
    (p1 p2 : PointQ) (gap : ℚ) :
    heapExt h (cutRef nrm h self p1 p2 gap).1 := by
  have hc := cutRefCore_ext h self p1 p2
  unfold cutRef
  rcases hr : cutRefCore h self p1 p2 with ⟨hf, a | ⟨a1, a2, pid1, pid2, flag⟩⟩
  · rw [hr] at hc
    exact hc
  · rw [hr] at hc
    by_cases hg : (0 : ℚ) < gap
    · simp only [if_pos hg]
      exact heapExt_trans hc (heapExt_trans
        (peelRef_ext nrm hf a1 pid2 (gap / 2))
        (peelRef_ext nrm _ a2 pid1 (gap / 2)))
    · simp only [if_neg hg]
      exact hc

/-- C10: Polygon.cut leaves its receiver untouched for every gap value:
the heap only grows, the receiver's vertex array keeps the same point
ids in the same order, and every one of those points keeps its
coordinates; the results are built from fresh polygons and freshly
allocated intersection points. -/
theorem cut_receiver_frame (nrm : PointQ → ℚ → PointQ) (h : Heap)
    (self : ℕ) (p1 p2 : PointQ) (gap : ℚ)
    (hself : self < h.arrs.length)
    (hwf : ∀ i ∈ derefArr h self, i < h.pts.length) :
    heapExt h (cutRef nrm h self p1 p2 gap).1 ∧
      derefArr (cutRef nrm h self p1 p2 gap).1 self = derefArr h self ∧
      derefPts (cutRef nrm h self p1 p2 gap).1 (derefArr h self) =
        derefPts h (derefArr h self) := by
  have hext := cutRef_ext nrm h self p1 p2 gap
  refine ⟨hext, ?_, ?_⟩
  · unfold derefArr
    rw [List.getD_eq_getElem?_getD, List.getD_eq_getElem?_getD,
      hext.2.2.2 self hself]
  · unfold derefPts
    refine List.map_congr_left ?_
    intro i hi
    unfold derefPt
    rw [List.getD_eq_getElem?_getD, List.getD_eq_getElem?_getD,
      hext.2.2.1 i (hwf i hi)]

/-- Witness: cutting the unit square stored in a one-polygon heap by the
vertical line x = 1/2 leaves the square's array and points unchanged. -/
theorem cut_receiver_frame_witness :
    heapExt sqHeap
        (cutRef (fun p _ => p) sqHeap 0 ⟨1 / 2, -1⟩ ⟨1 / 2, 2⟩ 0).1 ∧
      derefArr (cutRef (fun p _ => p) sqHeap 0 ⟨1 / 2, -1⟩ ⟨1 / 2, 2⟩ 0).1
          0 = derefArr sqHeap 0 ∧
      derefPts (cutRef (fun p _ => p) sqHeap 0 ⟨1 / 2, -1⟩ ⟨1 / 2, 2⟩ 0).1
          (derefArr sqHeap 0) = derefPts sqHeap (derefArr sqHeap 0) :=
  cut_receiver_frame (fun p _ => p) sqHeap 0 ⟨1 / 2, -1⟩ ⟨1 / 2, 2⟩ 0
    (by decide) (by decide)

end Settle
